import Mathlib

/-!
Verification development for the `openclaw-bitrix24` integration bridge.

Shallow embedding of the core components of `src/bitrix24`:
  * the text chunker and the bidirectional Markdown/BB-code converter
    (`format.ts`),
  * dialog-target parsing (`webhook-server.ts`, `parseDialogId`),
  * the token-bucket rate limiter, the OAuth refresh coordinator, and the
    REST client `callMethod` (`send.ts`),
  * incoming-event parsing (`receive.ts`, `parseMessageEvent`).

Text is modelled as `List Char` (a JS string); JS `lastIndexOf`, `trim`,
regex passes and `parseInt` are embedded as explicit recursive functions.
-/

namespace B24

/-- The whitespace characters recognised by JS `trim` / `\s`
(restricted to the ASCII whitespace actually occurring in this pipeline). -/
def jsWs (c : Char) : Bool :=
  c = ' ' || c = '\t' || c = '\n' || c = '\r' || c = '\x0b' || c = '\x0c'

/-- JS `String.prototype.trimStart`. -/
def trimStart (s : List Char) : List Char := s.dropWhile jsWs

/-- JS `String.prototype.trimEnd`. -/
def trimEnd (s : List Char) : List Char := (s.reverse.dropWhile jsWs).reverse

/-- JS `String.prototype.trim`. -/
def jsTrim (s : List Char) : List Char := trimStart (trimEnd s)

/-- Largest start index `i ≤ bound` at which `pat` occurs in `s`
(`-1` if none): the search core of JS `lastIndexOf(pat, bound)`. -/
def findLastOcc (s pat : List Char) : Nat → Int
  | 0 => if pat.isPrefixOf s then 0 else -1
  | i + 1 =>
    if pat.isPrefixOf (s.drop (i + 1)) then ((i + 1 : Nat) : Int)
    else findLastOcc s pat i

/-- JS `s.lastIndexOf(pat, fromIdx)` for a nonempty `pat`. -/
def lastIndexOf (s pat : List Char) (fromIdx : Nat) : Int :=
  findLastOcc s pat (min fromIdx s.length)

/-- The split-point search of `chunkText` (`format.ts` lines 125-147):
paragraph break, then single newline, then `". "` (keeping the period),
then space, then a hard cut at `maxLength`. -/
def pickSplit (remaining : List Char) (maxLength : Nat) : Int :=
  let p1 := lastIndexOf remaining ['\n', '\n'] maxLength
  let p2 := if p1 ≤ 0 then lastIndexOf remaining ['\n'] maxLength else p1
  let p3 :=
    if p2 ≤ 0 then
      let q := lastIndexOf remaining ['.', ' '] maxLength
      if q > 0 then q + 1 else q
    else p2
  let p4 := if p3 ≤ 0 then lastIndexOf remaining [' '] maxLength else p3
  if p4 ≤ 0 then (maxLength : Int) else p4

theorem dropWhile_length_le (p : Char → Bool) (s : List Char) :
    (s.dropWhile p).length ≤ s.length := by
  induction s with
  | nil => simp [List.dropWhile]
  | cons c cs ih =>
    by_cases h : p c
    · simp only [List.dropWhile, h]; exact Nat.le_succ_of_le ih
    · simp only [List.dropWhile, h]; simp

theorem trimStart_length_le (s : List Char) : (trimStart s).length ≤ s.length :=
  dropWhile_length_le jsWs s

theorem trimEnd_length_le (s : List Char) : (trimEnd s).length ≤ s.length := by
  simp only [trimEnd]
  calc (s.reverse.dropWhile jsWs).reverse.length
      = (s.reverse.dropWhile jsWs).length := List.length_reverse _
    _ ≤ s.reverse.length := dropWhile_length_le jsWs s.reverse
    _ = s.length := List.length_reverse _

/-- The `while (remaining.length > 0)` loop of `chunkText`.
`fuel` bounds the number of iterations; every iteration shortens
`remaining` by at least one character, so `fuel = remaining.length`
is always enough and the `fuel = 0` branch is never reached.  The final
`else []` branch (split point `0`) is likewise unreachable when
`1 ≤ maxLength`; for `maxLength = 0` the source loop never terminates,
so no meaningful value is ascribed there. -/
def chunkLoop (maxLength : Nat) : Nat → List Char → List (List Char)
  | 0, _ => []
  | fuel + 1, remaining =>
    if remaining = [] then []
    else if remaining.length ≤ maxLength then [remaining]
    else
      let s := (pickSplit remaining maxLength).toNat
      if 1 ≤ s then
        trimEnd (remaining.take s) ::
          chunkLoop maxLength fuel (trimStart (remaining.drop s))
      else []

/-- `chunkText` (`format.ts` lines 113-154). -/
def chunkText (text : List Char) (maxLength : Nat) : List (List Char) :=
  if text.length ≤ maxLength then [text]
  else chunkLoop maxLength text.length text

/-- `chunks` are the pieces of `text` up to whitespace dropped at the
boundaries between consecutive chunks. -/
inductive WsInterleaves : List Char → List (List Char) → Prop
  | nil : WsInterleaves [] []
  | cons (c w t : List Char) (cs : List (List Char)) :
      (∀ x ∈ w, jsWs x = true) → WsInterleaves t cs →
      WsInterleaves (c ++ w ++ t) (c :: cs)

theorem WsInterleaves.single (c : List Char) : WsInterleaves c [c] := by
  have h := WsInterleaves.cons c [] [] [] (by intro x hx; cases hx) WsInterleaves.nil
  simpa using h

theorem findLastOcc_le (s pat : List Char) : ∀ i, findLastOcc s pat i ≤ (i : Int) := by
  intro i
  induction i with
  | zero => simp only [findLastOcc]; split <;> simp
  | succ n ih =>
    simp only [findLastOcc]
    split
    · simp
    · calc findLastOcc s pat n ≤ (n : Int) := ih
        _ ≤ ((n + 1 : Nat) : Int) := by push_cast; omega

theorem lastIndexOf_le (s pat : List Char) (fromIdx : Nat) :
    lastIndexOf s pat fromIdx ≤ (fromIdx : Int) := by
  calc lastIndexOf s pat fromIdx ≤ ((min fromIdx s.length : Nat) : Int) :=
        findLastOcc_le s pat _
    _ ≤ (fromIdx : Int) := by
        have := Nat.min_le_left fromIdx s.length
        push_cast; omega

theorem pickSplit_pos (r : List Char) (m : Nat) (hm : 1 ≤ m) :
    1 ≤ pickSplit r m := by
  simp only [pickSplit]
  split
  · push_cast; omega
  · omega

theorem pickSplit_le (r : List Char) (m : Nat) :
    pickSplit r m ≤ (m : Int) + 1 := by
  have h1 := lastIndexOf_le r ['\n', '\n'] m
  have h2 := lastIndexOf_le r ['\n'] m
  have h3 := lastIndexOf_le r ['.', ' '] m
  have h4 := lastIndexOf_le r [' '] m
  simp only [pickSplit]
  split_ifs <;> omega

/-- Dropping the trailing whitespace of `t` splits it as
`trimEnd t ++ (whitespace)`. -/
theorem trimEnd_decomp (t : List Char) :
    ∃ w, t = trimEnd t ++ w ∧ ∀ x ∈ w, jsWs x = true := by
  refine ⟨(t.reverse.takeWhile jsWs).reverse, ?_, ?_⟩
  · have h := List.takeWhile_append_dropWhile (p := jsWs) (l := t.reverse)
    calc t = t.reverse.reverse := (List.reverse_reverse t).symm
      _ = (t.reverse.takeWhile jsWs ++ t.reverse.dropWhile jsWs).reverse := by rw [h]
      _ = trimEnd t ++ (t.reverse.takeWhile jsWs).reverse := by
          rw [List.reverse_append]; rfl
  · intro x hx
    rw [List.mem_reverse] at hx
    exact List.mem_takeWhile_imp hx

/-- Dropping the leading whitespace of `t` splits it as
`(whitespace) ++ trimStart t`. -/
theorem trimStart_decomp (t : List Char) :
    ∃ w, t = w ++ trimStart t ∧ ∀ x ∈ w, jsWs x = true := by
  refine ⟨t.takeWhile jsWs, (List.takeWhile_append_dropWhile (p := jsWs) (l := t)).symm, ?_⟩
  intro x hx
  exact List.mem_takeWhile_imp hx

theorem chunkLoop_spec (m : Nat) (hm : 1 ≤ m) :
    ∀ fuel remaining, remaining.length ≤ fuel →
      (∀ c ∈ chunkLoop m fuel remaining, c.length ≤ m + 1) ∧
      WsInterleaves remaining (chunkLoop m fuel remaining) := by
  intro fuel
  induction fuel with
  | zero =>
    intro remaining hlen
    have : remaining = [] := List.length_eq_zero.mp (Nat.le_zero.mp hlen)
    subst this
    exact ⟨(by intro c hc; cases hc), WsInterleaves.nil⟩
  | succ n ih =>
    intro remaining hlen
    by_cases hnil : remaining = []
    · subst hnil
      simp only [chunkLoop, if_pos rfl]
      exact ⟨(by intro c hc; cases hc), WsInterleaves.nil⟩
    · by_cases hsmall : remaining.length ≤ m
      · simp only [chunkLoop, if_neg hnil, if_pos hsmall]
        refine ⟨?_, WsInterleaves.single remaining⟩
        intro c hc
        have : c = remaining := by simpa using hc
        subst this; omega
      · have hpos : 1 ≤ (pickSplit remaining m).toNat := by
          have := pickSplit_pos remaining m hm
          omega
        have hle : (pickSplit remaining m).toNat ≤ m + 1 := by
          have := pickSplit_le remaining m
          omega
        simp only [chunkLoop, if_neg hnil, if_neg hsmall, if_pos hpos]
        set s := (pickSplit remaining m).toNat with hs
        have hrec := ih (trimStart (remaining.drop s)) (by
          calc (trimStart (remaining.drop s)).length
              ≤ (remaining.drop s).length := trimStart_length_le _
            _ = remaining.length - s := List.length_drop s remaining
            _ ≤ n := by
                have : 0 < remaining.length := List.length_pos.mpr hnil
                omega)
        refine ⟨?_, ?_⟩
        · intro c hc
          rcases List.mem_cons.mp hc with hc | hc
          · subst hc
            calc (trimEnd (remaining.take s)).length
                ≤ (remaining.take s).length := trimEnd_length_le _
              _ ≤ s := by simpa using List.length_take_le s remaining
              _ ≤ m + 1 := hle
          · exact hrec.1 c hc
        · obtain ⟨w1, hw1, hw1ws⟩ := trimEnd_decomp (remaining.take s)
          obtain ⟨w2, hw2, hw2ws⟩ := trimStart_decomp (remaining.drop s)
          have hsplit : remaining =
              trimEnd (remaining.take s) ++ (w1 ++ w2) ++ trimStart (remaining.drop s) := by
            calc remaining = remaining.take s ++ remaining.drop s :=
                  (List.take_append_drop s remaining).symm
              _ = (trimEnd (remaining.take s) ++ w1) ++ (w2 ++ trimStart (remaining.drop s)) := by
                  rw [← hw1, ← hw2]
              _ = trimEnd (remaining.take s) ++ (w1 ++ w2) ++ trimStart (remaining.drop s) := by
                  simp [List.append_assoc]
          have hgoal : WsInterleaves
              (trimEnd (remaining.take s) ++ (w1 ++ w2) ++ trimStart (remaining.drop s))
              (trimEnd (remaining.take s) ::
                chunkLoop m n (trimStart (remaining.drop s))) :=
            WsInterleaves.cons _ (w1 ++ w2) _ _
              (by intro x hx
                  rcases List.mem_append.mp hx with hx | hx
                  · exact hw1ws x hx
                  · exact hw2ws x hx)
              hrec.2
          rw [← hsplit] at hgoal
          exact hgoal

/-- C3 (amended): every chunk has length at most `maxLength + 1`; the
concatenation of the chunks recovers the text up to boundary whitespace;
a text of length at most `maxLength` is returned whole. -/
theorem chunkText_spec (text : List Char) (maxLength : Nat) (hm : 1 ≤ maxLength) :
    (∀ c ∈ chunkText text maxLength, c.length ≤ maxLength + 1) ∧
    WsInterleaves text (chunkText text maxLength) ∧
    (text.length ≤ maxLength → chunkText text maxLength = [text]) := by
  by_cases h : text.length ≤ maxLength
  · simp only [chunkText, if_pos h]
    refine ⟨?_, WsInterleaves.single text, by intro _; simp⟩
    intro c hc
    have : c = text := by simpa using hc
    subst this; omega
  · simp only [chunkText, if_neg h]
    have := chunkLoop_spec maxLength hm text.length text le_rfl
    exact ⟨this.1, this.2, fun hc => absurd hc h⟩

/-- C3 counterexample: as literally stated the claim is false.  For
`chunkText "abc. d" 3` the sentence-boundary rule (`". "` found with the
period at index `maxLength`, then `splitAt += 1`) emits the chunk
`"abc."` of length `4 = maxLength + 1`, which is neither `≤ maxLength`
nor a hard cut of length exactly `maxLength`. -/
theorem chunkText_claim_counterexample :
    chunkText "abc. d".data 3 = ["abc.".data, "d".data] ∧
    ¬ (∀ c ∈ chunkText "abc. d".data 3, c.length ≤ 3 ∨ c.length = 3) := by
  refine ⟨by decide, ?_⟩
  intro hall
  have h := hall "abc.".data (by decide)
  have hlen : "abc.".data.length = 4 := by decide
  omega

/-- Witness for `chunkText_spec` at concrete inputs. -/
theorem chunkText_spec_witness :
    WsInterleaves "ab cd ef".data (chunkText "ab cd ef".data 5) ∧
    chunkText "hello".data 10 = ["hello".data] :=
  ⟨(chunkText_spec "ab cd ef".data 5 (by decide)).2.1,
   (chunkText_spec "hello".data 10 (by decide)).2.2 (by decide)⟩

/-! ### Dialog-target parsing (`webhook-server.ts`, `parseDialogId`) -/

/-- Decimal value of a digit string (most significant first). -/
def digitsToNat (ds : List Char) : Nat :=
  ds.foldl (fun acc c => acc * 10 + (c.toNat - 48)) 0

/-- The longest leading digit run, as required by JS `parseInt`:
`none` when the run is empty (`NaN`). -/
def digitsPrefix (t : List Char) : Option Nat :=
  let d := t.takeWhile Char.isDigit
  if d = [] then none else some (digitsToNat d)

/-- JS `parseInt(s, 10)`: skip leading whitespace, read an optional sign
and then the longest digit prefix, ignoring everything after it;
`none` models `NaN`. -/
def parseIntBase10 (s : List Char) : Option Int :=
  match s.dropWhile jsWs with
  | [] => none
  | c :: rest =>
    if c = '-' then (digitsPrefix rest).map (fun n => -(n : Int))
    else if c = '+' then (digitsPrefix rest).map (fun n => (n : Int))
    else (digitsPrefix (c :: rest)).map (fun n => (n : Int))

/-- The regex `/^chat(\d+)$/i` of `parseDialogId`: a case-insensitive
`chat` prefix followed by one or more digits, capturing their value. -/
def chatMatch (s : List Char) : Option Nat :=
  if (s.take 4).map Char.toLower = ['c', 'h', 'a', 't'] then
    let ds := s.drop 4
    if ds ≠ [] ∧ ds.all Char.isDigit then some (digitsToNat ds) else none
  else none

inductive TargetType | user | chat
deriving DecidableEq, Repr

/-- `ParsedTarget` (`webhook-server.ts`). -/
structure ParsedTarget where
  targetType : TargetType
  id : Int
  dialogId : List Char
deriving DecidableEq, Repr

/-- JS `String(n)` for an integer. -/
def jsNumToString (v : Int) : List Char :=
  if v < 0 then '-' :: Nat.toDigits 10 (-v).toNat else Nat.toDigits 10 v.toNat

/-- `parseDialogId` (`webhook-server.ts` lines 104-124); `none` models the
thrown `Invalid DIALOG_ID` error. -/
def parseDialogId (dialogId : List Char) : Option ParsedTarget :=
  match chatMatch dialogId with
  | some n => some ⟨.chat, (n : Int), dialogId⟩
  | none =>
    match parseIntBase10 dialogId with
    | some v => if 0 < v then some ⟨.user, v, jsNumToString v⟩ else none
    | none => none

/-- The claim's first accepted shape: a bare (all-digits) integer string. -/
def claimBareIntShape (s : List Char) : Bool :=
  !s.isEmpty && s.all Char.isDigit

/-- The claim's second accepted shape: the literal prefix `chat`
followed by one or more digits. -/
def claimChatShape (s : List Char) : Bool :=
  s.take 4 = ['c', 'h', 'a', 't'] && !(s.drop 4).isEmpty && (s.drop 4).all Char.isDigit

theorem toLower_of_isDigit (d : Char) (h : d.isDigit = true) : d.toLower = d := by
  simp only [Char.isDigit, Bool.and_eq_true, decide_eq_true_eq] at h
  obtain ⟨h1, h2⟩ := h
  have h2' : d.val.toNat ≤ 57 := h2
  simp only [Char.toLower, Char.toNat]
  rw [if_neg]
  omega

theorem isDigit_ne_c (d : Char) (h : d.isDigit = true) : d ≠ 'c' := by
  intro e; subst e; simp [Char.isDigit] at h

theorem jsWs_of_isDigit (d : Char) (h : d.isDigit = true) : jsWs d = false := by
  have hs : d ≠ ' ' := by intro e; subst e; simp [Char.isDigit] at h
  have ht : d ≠ '\t' := by intro e; subst e; simp [Char.isDigit] at h
  have hn : d ≠ '\n' := by intro e; subst e; simp [Char.isDigit] at h
  have hr : d ≠ '\r' := by intro e; subst e; simp [Char.isDigit] at h
  have hv : d ≠ '\x0b' := by intro e; subst e; simp [Char.isDigit] at h
  have hf : d ≠ '\x0c' := by intro e; subst e; simp [Char.isDigit] at h
  simp [jsWs, hs, ht, hn, hr, hv, hf]

theorem isDigit_ne_sign (d : Char) (h : d.isDigit = true) : d ≠ '-' ∧ d ≠ '+' := by
  constructor <;> (intro e; subst e; simp [Char.isDigit] at h)

theorem takeWhile_eq_self_of_all {p : Char → Bool} (s : List Char)
    (h : ∀ x ∈ s, p x = true) : s.takeWhile p = s := by
  induction s with
  | nil => rfl
  | cons c cs ih =>
    rw [List.takeWhile_cons_of_pos (h c (List.mem_cons_self c cs))]
    rw [ih (fun x hx => h x (List.mem_cons_of_mem c hx))]

theorem dropWhile_eq_self_of_head {p : Char → Bool} (c : Char) (cs : List Char)
    (h : p c = false) : (c :: cs).dropWhile p = c :: cs := by
  rw [List.dropWhile_cons_of_neg]
  simp [h]

/-- C7 (amended): `parseDialogId` accepts bare positive-integer strings
as user targets and a case-insensitive `chat` prefix with digits as chat
targets; any string whose JS `parseInt(·, 10)` value (sign plus longest
digit prefix, trailing characters discarded) is positive is coerced to a
user target; everything else (no chat match and no positive parse)
raises the parse error. -/
theorem parseDialogId_spec :
    (∀ s : List Char, s ≠ [] → s.all Char.isDigit = true → 0 < digitsToNat s →
        parseDialogId s = some ⟨.user, (digitsToNat s : Int), Nat.toDigits 10 (digitsToNat s)⟩) ∧
    (∀ pre ds : List Char, pre.map Char.toLower = ['c', 'h', 'a', 't'] →
        ds ≠ [] → ds.all Char.isDigit = true →
        parseDialogId (pre ++ ds) = some ⟨.chat, (digitsToNat ds : Int), pre ++ ds⟩) ∧
    (∀ (s : List Char) (v : Int), chatMatch s = none → parseIntBase10 s = some v → 0 < v →
        parseDialogId s = some ⟨.user, v, jsNumToString v⟩) ∧
    (∀ s : List Char, chatMatch s = none →
        (parseIntBase10 s = none ∨ ∃ v, parseIntBase10 s = some v ∧ v ≤ 0) →
        parseDialogId s = none) := by
  have hnum : ∀ n : Nat, jsNumToString (n : Int) = Nat.toDigits 10 n := by
    intro n
    simp only [jsNumToString]
    rw [if_neg (by omega)]
    simp
  refine ⟨?_, ?_, ?_, ?_⟩
  · intro s hne hall hpos
    obtain ⟨d, rest, rfl⟩ : ∃ d rest, s = d :: rest := by
      cases s with
      | nil => exact absurd rfl hne
      | cons d rest => exact ⟨d, rest, rfl⟩
    have hd : d.isDigit = true := by
      have := List.all_eq_true.mp hall
      exact this d (List.mem_cons_self d rest)
    have hcm : chatMatch (d :: rest) = none := by
      simp only [chatMatch]
      rw [if_neg]
      intro he
      have hhead : Char.toLower d = 'c' := by
        have : ((d :: rest).take 4).map Char.toLower =
            Char.toLower d :: ((rest.take 3).map Char.toLower) := rfl
        rw [this] at he
        exact (List.cons.injEq _ _ _ _ ▸ he).1
      rw [toLower_of_isDigit d hd] at hhead
      exact isDigit_ne_c d hd hhead
    have hdrop : (d :: rest).dropWhile jsWs = d :: rest :=
      dropWhile_eq_self_of_head d rest (jsWs_of_isDigit d hd)
    have hsign := isDigit_ne_sign d hd
    have htake : (d :: rest).takeWhile Char.isDigit = d :: rest :=
      takeWhile_eq_self_of_all _ (List.all_eq_true.mp hall)
    have hparse : parseIntBase10 (d :: rest) = some ((digitsToNat (d :: rest) : Nat) : Int) := by
      simp only [parseIntBase10, hdrop]
      rw [if_neg (by simpa using hsign.1), if_neg (by simpa using hsign.2)]
      simp only [digitsPrefix, htake]
      rw [if_neg (by simp)]
      rfl
    simp only [parseDialogId, hcm, hparse]
    rw [if_pos (by exact_mod_cast hpos)]
    rw [hnum]
  · intro pre ds hpre hds hdig
    have hlen : pre.length = 4 := by
      have := congrArg List.length hpre
      simpa using this
    have htake : (pre ++ ds).take 4 = pre := by
      rw [← hlen]
      exact List.take_left pre ds
    have hdrop : (pre ++ ds).drop 4 = ds := by
      rw [← hlen]
      exact List.drop_left pre ds
    have hcm : chatMatch (pre ++ ds) = some (digitsToNat ds) := by
      simp only [chatMatch, htake, hdrop]
      rw [if_pos hpre, if_pos ⟨hds, hdig⟩]
    simp [parseDialogId, hcm]
  · intro s v hcm hp hv
    simp [parseDialogId, hcm, hp, hv]
  · intro s hcm hbad
    rcases hbad with hp | ⟨v, hp, hv⟩
    · simp [parseDialogId, hcm, hp]
    · simp only [parseDialogId, hcm, hp]
      rw [if_neg (by omega)]

/-- C7 counterexample: `"123abc"` is neither of the two shapes the claim
allows, yet `parseDialogId` silently coerces it (JS `parseInt` discards
the trailing `"abc"`) to the user target `123` instead of raising the
parse error. -/
theorem parseDialogId_claim_counterexample :
    claimBareIntShape "123abc".data = false ∧
    claimChatShape "123abc".data = false ∧
    parseDialogId "123abc".data =
      some ⟨.user, (123 : Int), "123".data⟩ := by
  refine ⟨by decide, by decide, ?_⟩
  decide

/-- Witness for `parseDialogId_spec`: the claim's own examples. -/
theorem parseDialogId_spec_witness :
    parseDialogId "123".data = some ⟨.user, (123 : Int), Nat.toDigits 10 123⟩ ∧
    parseDialogId "chat456".data = some ⟨.chat, (456 : Int), "chat456".data⟩ ∧
    parseDialogId "abc".data = none := by
  refine ⟨?_, ?_, ?_⟩
  · have h := parseDialogId_spec.1 "123".data (by decide) (by decide) (by decide)
    have he : digitsToNat "123".data = 123 := by decide
    rw [he] at h
    exact h
  · have h := parseDialogId_spec.2.1 "chat".data "456".data (by decide) (by decide) (by decide)
    have he : digitsToNat "456".data = 456 := by decide
    rw [he] at h
    exact h
  · exact parseDialogId_spec.2.2.2 "abc".data (by decide) (Or.inl (by decide))

/-! ### Token-bucket rate limiter (`send.ts`, class `RateLimiter`) -/

/-- State of the `RateLimiter` class.  `queue` holds the pending
acquirers' identities in arrival order; `timerOn` models
`this.timer !== null`; tokens are modelled as `Int` so that the
`0 ≤ tokens` half of the invariant is not true by type alone. -/
structure RateLimiter where
  queue : List Nat
  tokens : Int
  maxTokens : Int
  refillInterval : ℚ
  timerOn : Bool
deriving DecidableEq, Repr

/-- `new RateLimiter(reqPerSec)`. -/
def RateLimiter.init (reqPerSec : Nat) : RateLimiter :=
  { queue := []
    tokens := reqPerSec
    maxTokens := reqPerSec
    refillInterval := 1000 / (reqPerSec : ℚ)
    timerOn := false }

/-- `acquire()` for a caller identified by `c`: returns the new state and
whether the call resolved immediately (`true`) or was enqueued
(`false`).  Both branches run `ensureRefill()`, which starts the timer
if it is not running. -/
def RateLimiter.acquire (s : RateLimiter) (c : Nat) : RateLimiter × Bool :=
  if 0 < s.tokens then
    ({ s with tokens := s.tokens - 1, timerOn := true }, true)
  else
    ({ s with queue := s.queue ++ [c], timerOn := true }, false)

/-- One tick of the `setInterval` refill callback: if the queue is
non-empty, release exactly its head (no token is minted); otherwise
refill one token up to `maxTokens` and stop the timer once full.
A tick only happens while the timer is running. -/
def RateLimiter.tick (s : RateLimiter) : RateLimiter × Option Nat :=
  if s.timerOn then
    match s.queue with
    | next :: rest => ({ s with queue := rest }, some next)
    | [] =>
      let t := min (s.tokens + 1) s.maxTokens
      if s.maxTokens ≤ t then ({ s with tokens := t, timerOn := false }, none)
      else ({ s with tokens := t }, none)
  else (s, none)

/-- `destroy()`: stop the timer and drop all queued waiters. -/
def RateLimiter.destroy (s : RateLimiter) : RateLimiter :=
  { s with timerOn := false, queue := [] }

/-- Run `acquire()` once for each caller in `cs`, in order; returns the
final state and the per-caller immediate-resolution flags. -/
def acquireRun (s : RateLimiter) : List Nat → RateLimiter × List Bool
  | [] => (s, [])
  | c :: cs =>
    let r1 := s.acquire c
    let r2 := acquireRun r1.1 cs
    (r2.1, r1.2 :: r2.2)

/-- Run `k` refill ticks; returns the final state and the callers
released, in release order. -/
def tickRun (s : RateLimiter) : Nat → RateLimiter × List Nat
  | 0 => (s, [])
  | k + 1 =>
    let r1 := s.tick
    let r2 := tickRun r1.1 k
    (r2.1, r1.2.toList ++ r2.2)

theorem acquireRun_general (cs : List Nat) :
    ∀ s : RateLimiter, 0 ≤ s.tokens →
      (acquireRun s cs).1.queue = s.queue ++ cs.drop s.tokens.toNat ∧
      (acquireRun s cs).2 =
        List.replicate (min cs.length s.tokens.toNat) true ++
          List.replicate (cs.length - s.tokens.toNat) false ∧
      (acquireRun s cs).1.timerOn = (s.timerOn || !cs.isEmpty) ∧
      (acquireRun s cs).1.refillInterval = s.refillInterval := by
  induction cs with
  | nil => intro s _; simp [acquireRun]
  | cons c cs ih =>
    intro s hs
    by_cases hpos : 0 < s.tokens
    · have htn : 1 ≤ s.tokens.toNat := by omega
      simp only [acquireRun, RateLimiter.acquire, if_pos hpos]
      obtain ⟨ihq, ihf, iht, ihr⟩ := ih { s with tokens := s.tokens - 1, timerOn := true }
        (by show (0 : Int) ≤ s.tokens - 1; omega)
      refine ⟨?_, ?_, ?_, ?_⟩
      · rw [ihq]
        show s.queue ++ cs.drop (s.tokens - 1).toNat =
          s.queue ++ (c :: cs).drop s.tokens.toNat
        have h1 : (s.tokens - 1).toNat = s.tokens.toNat - 1 := by omega
        rw [h1]
        cases hn : s.tokens.toNat with
        | zero => omega
        | succ m => simp
      · rw [ihf]
        show true :: (List.replicate (min cs.length (s.tokens - 1).toNat) true ++
            List.replicate (cs.length - (s.tokens - 1).toNat) false) =
          List.replicate (min (c :: cs).length s.tokens.toNat) true ++
            List.replicate ((c :: cs).length - s.tokens.toNat) false
        have h1 : (s.tokens - 1).toNat = s.tokens.toNat - 1 := by omega
        simp only [List.length_cons, h1]
        have h2 : min (cs.length + 1) s.tokens.toNat =
            min cs.length (s.tokens.toNat - 1) + 1 := by omega
        have h3 : cs.length + 1 - s.tokens.toNat =
            cs.length - (s.tokens.toNat - 1) := by omega
        rw [h2, h3, List.replicate_succ]
        rfl
      · rw [iht]; simp
      · rw [ihr]
    · have hz : s.tokens = 0 := by omega
      have htn : s.tokens.toNat = 0 := by omega
      simp only [acquireRun, RateLimiter.acquire, if_neg hpos]
      obtain ⟨ihq, ihf, iht, ihr⟩ := ih { s with queue := s.queue ++ [c], timerOn := true }
        (by simpa using hs)
      refine ⟨?_, ?_, ?_, ?_⟩
      · rw [ihq]
        simp [htn]
      · rw [ihf]
        simp [htn, List.replicate_succ]
      · rw [iht]; simp
      · rw [ihr]

theorem tickRun_fifo (k : Nat) :
    ∀ s : RateLimiter, s.timerOn = true → k ≤ s.queue.length →
      (tickRun s k).2 = s.queue.take k ∧
      (tickRun s k).1.queue = s.queue.drop k ∧
      (tickRun s k).1.tokens = s.tokens := by
  induction k with
  | zero => intro s _ _; simp [tickRun]
  | succ n ih =>
    intro s hon hlen
    obtain ⟨next, rest, hq⟩ : ∃ next rest, s.queue = next :: rest := by
      cases hq : s.queue with
      | nil => rw [hq] at hlen; simp at hlen
      | cons a l => exact ⟨a, l, rfl⟩
    have hstep : s.tick = ({ s with queue := rest }, some next) := by
      unfold RateLimiter.tick
      rw [hon, hq]
      rfl
    have hon' : ({ s with queue := rest } : RateLimiter).timerOn = true := hon
    have hlen' : n ≤ ({ s with queue := rest } : RateLimiter).queue.length := by
      show n ≤ rest.length
      rw [hq] at hlen
      simpa using Nat.le_of_succ_le_succ hlen
    obtain ⟨ih1, ih2, ih3⟩ := ih { s with queue := rest } hon' hlen'
    refine ⟨?_, ?_, ?_⟩
    · show s.tick.2.toList ++ (tickRun s.tick.1 n).2 = s.queue.take (n + 1)
      rw [hstep, ih1, hq]
      show [next] ++ rest.take n = (next :: rest).take (n + 1)
      simp
    · show (tickRun s.tick.1 n).1.queue = s.queue.drop (n + 1)
      rw [hstep, ih2, hq]
      rfl
    · show (tickRun s.tick.1 n).1.tokens = s.tokens
      rw [hstep, ih3]

theorem drop_range' : ∀ (k a m : Nat), (List.range' a m).drop k = List.range' (a + k) (m - k) := by
  intro k
  induction k with
  | zero => intro a m; simp
  | succ j ih =>
    intro a m
    cases m with
    | zero => simp [List.range']
    | succ m' =>
      rw [List.range'_succ]
      simp only [List.drop_succ_cons]
      rw [ih (a + 1) m']
      congr 1 <;> omega

theorem drop_range (r n : Nat) : (List.range n).drop r = List.range' r (n - r) := by
  rw [List.range_eq_range', drop_range']
  simp

/-- C5: `n` rapid `acquire()` calls on a fresh limiter at `r` req/s
resolve immediately for exactly the first `min n r` callers, the rest
are queued in FIFO arrival order, the refill interval is `1000/r` ms,
and `k` subsequent refill ticks release exactly the first `k` queued
callers in arrival order (one per tick). -/
theorem rateLimiter_acquire_spec (r n : Nat) (hr : 1 ≤ r) :
    (acquireRun (RateLimiter.init r) (List.range n)).2 =
      List.replicate (min n r) true ++ List.replicate (n - r) false ∧
    (acquireRun (RateLimiter.init r) (List.range n)).1.queue = List.range' r (n - r) ∧
    (RateLimiter.init r).refillInterval = 1000 / (r : ℚ) ∧
    (∀ k, k ≤ n - r →
      (tickRun (acquireRun (RateLimiter.init r) (List.range n)).1 k).2 =
        (List.range' r (n - r)).take k) := by
  have h0 : (0 : Int) ≤ (RateLimiter.init r).tokens := by
    simp [RateLimiter.init]
  obtain ⟨hq, hf, ht, _⟩ := acquireRun_general (List.range n) (RateLimiter.init r) h0
  have htn : (RateLimiter.init r).tokens.toNat = r := by
    simp [RateLimiter.init]
  have hqr : (acquireRun (RateLimiter.init r) (List.range n)).1.queue =
      List.range' r (n - r) := by
    rw [hq, htn]
    show [] ++ (List.range n).drop r = List.range' r (n - r)
    rw [List.nil_append, drop_range]
  refine ⟨?_, hqr, rfl, ?_⟩
  · rw [hf, htn]
    simp
  · intro k hk
    by_cases hn : n - r = 0
    · have : k = 0 := by omega
      subst this
      simp [tickRun]
    · have hton : (acquireRun (RateLimiter.init r) (List.range n)).1.timerOn = true := by
        rw [ht]
        have : n ≠ 0 := by omega
        simp [RateLimiter.init, List.isEmpty_iff, List.range_eq_nil, this]
      obtain ⟨h1, _, _⟩ := tickRun_fifo k _ hton
        (by rw [hqr]; simpa using hk)
      rw [h1, hqr]

/-- Witness for `rateLimiter_acquire_spec` at `r = 2`, `n = 5`. -/
theorem rateLimiter_acquire_spec_witness :
    (acquireRun (RateLimiter.init 2) (List.range 5)).2 =
      [true, true, false, false, false] ∧
    (tickRun (acquireRun (RateLimiter.init 2) (List.range 5)).1 2).2 = [2, 3] := by
  obtain ⟨hf, _, _, htk⟩ := rateLimiter_acquire_spec 2 5 (by decide)
  constructor
  · rw [hf]; decide
  · have := htk 2 (by decide)
    rw [this]; decide

/-- The data-model invariant of the limiter: `0 ≤ tokens ≤ capacity`. -/
def RLInv (s : RateLimiter) : Prop :=
  0 ≤ s.tokens ∧ s.tokens ≤ s.maxTokens

instance : DecidablePred RLInv := fun s => by
  unfold RLInv; infer_instance

/-- C6: the invariant `0 ≤ tokens ≤ capacity` holds initially (with
`capacity = requestsPerSecond`) and is preserved by `acquire`, by each
refill tick, and by `destroy`. -/
theorem rateLimiter_invariant :
    (∀ r : Nat, RLInv (RateLimiter.init r) ∧ (RateLimiter.init r).maxTokens = r) ∧
    (∀ (s : RateLimiter) (c : Nat), RLInv s → RLInv (s.acquire c).1) ∧
    (∀ s : RateLimiter, RLInv s → RLInv s.tick.1) ∧
    (∀ s : RateLimiter, RLInv s → RLInv s.destroy) := by
  refine ⟨?_, ?_, ?_, ?_⟩
  · intro r
    refine ⟨⟨?_, ?_⟩, rfl⟩ <;> simp [RateLimiter.init]
  · intro s c ⟨h1, h2⟩
    simp only [RateLimiter.acquire]
    split_ifs with h
    · exact ⟨by simp; omega, by simp; omega⟩
    · exact ⟨by simpa using h1, by simpa using h2⟩
  · intro s ⟨h1, h2⟩
    simp only [RateLimiter.tick]
    by_cases h : s.timerOn
    · rw [if_pos h]
      cases hq : s.queue with
      | cons a l => exact ⟨h1, h2⟩
      | nil =>
        split_ifs with h3
        · exact ⟨le_min (by omega) (by omega), min_le_right _ _⟩
        · exact ⟨le_min (by omega) (by omega), min_le_right _ _⟩
    · rw [if_neg h]
      exact ⟨h1, h2⟩
  · intro s ⟨h1, h2⟩
    exact ⟨h1, h2⟩

/-- Witness for `rateLimiter_invariant`: preservation evaluated on a
concrete state. -/
theorem rateLimiter_invariant_witness :
    RLInv ((RateLimiter.init 2).acquire 0).1 ∧
    RLInv ((RateLimiter.init 2).acquire 0).1.tick.1 ∧
    RLInv (RateLimiter.init 2).destroy :=
  ⟨rateLimiter_invariant.2.1 _ 0 (rateLimiter_invariant.1 2).1,
   rateLimiter_invariant.2.2.1 _
     (rateLimiter_invariant.2.1 _ 0 (rateLimiter_invariant.1 2).1),
   rateLimiter_invariant.2.2.2 _ (rateLimiter_invariant.1 2).1⟩

/-! ### REST client and OAuth refresh (`send.ts`, class `Bitrix24Client`) -/

/-- JS truthiness of an optional string field (`undefined` and `""` are
falsy). -/
def truthy : Option String → Bool
  | none => false
  | some s => s ≠ ""

/-- `OAuthAuth` (`types.ts`). -/
structure OAuthAuth where
  accessToken : String
  refreshToken : Option String
  expiresAt : Option Int
  clientId : Option String
  clientSecret : Option String
deriving DecidableEq, Repr

/-- `BitrixAuth` (`types.ts`): webhook or OAuth credential. -/
inductive BitrixAuth
  | webhook (webhookUrl : String)
  | oauth (o : OAuthAuth)
deriving DecidableEq, Repr

/-- `TOKEN_ERROR_CODES` (`send.ts` line 201). -/
def TOKEN_ERROR_CODES : List String :=
  ["expired_token", "invalid_token", "NO_AUTH_FOUND"]

/-- `getAuthParams()` (`send.ts` lines 234-240). -/
def getAuthParams : BitrixAuth → List (String × String)
  | .oauth o => [("auth", o.accessToken)]
  | .webhook _ => []

/-- `canRefresh()` (`send.ts` lines 244-248). -/
def canRefresh : BitrixAuth → Bool
  | .oauth o => truthy o.refreshToken && truthy o.clientId && truthy o.clientSecret
  | .webhook _ => false

/-- JS object update `{...obj, k: v}` on an association-list model of an
object: an existing key keeps its position and gets the new value, a new
key is appended. -/
def spreadSet (params : List (String × String)) (k v : String) :
    List (String × String) :=
  if params.any (fun kv => kv.1 = k) then
    params.map (fun kv => if kv.1 = k then (k, v) else kv)
  else params ++ [(k, v)]

/-- The POST body `{ ...params, ...authParams }` of `callMethod`. -/
def mergeAuthBody (params authParams : List (String × String)) :
    List (String × String) :=
  authParams.foldl (fun acc kv => spreadSet acc kv.1 kv.2) params

/-- `BitrixApiResponse` (`types.ts`): the REST error envelope. -/
structure ApiResponse where
  result : String
  error : Option String
  error_description : Option String
deriving DecidableEq, Repr

/-- The token endpoint's success payload (`oauth.ts`, `TokenResponse`),
restricted to the fields `doRefresh` reads. -/
structure TokenResp where
  access_token : String
  refresh_token : String
  expires_in : Int
deriving DecidableEq, Repr

/-- `OAuthError` (`oauth.ts`): the distinct refresh-failure type. -/
structure OAuthErr where
  oauthCode : String
  oauthDescription : String
deriving DecidableEq, Repr

/-- `expiresAtFromResponse` (`oauth.ts`): `now + expires_in*1000 - buffer`
with the default 5-minute buffer. -/
def expiresAtFromResponse (now expiresInSec : Int) : Int :=
  now + expiresInSec * 1000 - 5 * 60 * 1000

/-- `isTokenExpired` (`oauth.ts`): `false` when `expiresAt` is undefined. -/
def isTokenExpired (expiresAt : Option Int) (now : Int) : Bool :=
  match expiresAt with
  | none => false
  | some t => now ≥ t

/-- Errors escaping `callMethod`: `Bitrix24Error` with
`{code, description, method}`, or a propagated `OAuthError`. -/
inductive CallErr
  | api (code description method : String)
  | oauth (e : OAuthErr)
deriving DecidableEq, Repr

/-- Externally observable steps of one `callMethod` invocation. -/
inductive CallEv
  | acquire
  | post (body : List (String × String))
  | refreshHttp
deriving DecidableEq, Repr

structure CallResult where
  outcome : Except CallErr String
  finalAuth : BitrixAuth
  events : List CallEv
deriving Repr

/-- The credential effect of one physical refresh (`doRefresh`,
`send.ts` lines 287-299): a failure is the `OAuthError` thrown by
`refreshTokens`; success replaces the in-memory tokens. -/
def applyRefresh (o : OAuthAuth) (now : Int) :
    Except OAuthErr TokenResp → Except OAuthErr OAuthAuth
  | .error e => .error e
  | .ok tr => .ok { o with
      accessToken := tr.access_token
      refreshToken := some tr.refresh_token
      expiresAt := some (expiresAtFromResponse now tr.expires_in) }

/-- `refreshIfNeeded()` (`send.ts` lines 254-261): proactive refresh
when the credential is OAuth, `expiresAt` has passed, and the refresh
prerequisites are present. -/
def refreshIfNeededM (auth : BitrixAuth) (now : Int)
    (refreshOutcome : Except OAuthErr TokenResp) :
    Except OAuthErr (BitrixAuth × List CallEv) :=
  match auth with
  | .webhook _ => .ok (auth, [])
  | .oauth o =>
    if isTokenExpired o.expiresAt now then
      if canRefresh auth then
        match applyRefresh o now refreshOutcome with
        | .error e => .error e
        | .ok o' => .ok (.oauth o', [.refreshHttp])
      else .ok (auth, [])
    else .ok (auth, [])

/-- `callMethod` (`send.ts` lines 315-355) as a function of the two
possible POST responses and the token endpoint's behaviour.  The
`.webhook` sub-branch of the retry path is unreachable because
`canRefresh` is false for webhook credentials (the source casts
`this.config.auth as OAuthAuth` there). -/
def callMethodM (auth : BitrixAuth) (now : Int) (method : String)
    (params : List (String × String)) (resp1 resp2 : ApiResponse)
    (refreshOutcome : Except OAuthErr TokenResp) : CallResult :=
  match refreshIfNeededM auth now refreshOutcome with
  | .error e =>
    { outcome := .error (.oauth e), finalAuth := auth, events := [.refreshHttp] }
  | .ok (auth1, evs0) =>
    let body1 := mergeAuthBody params (getAuthParams auth1)
    if truthy resp1.error then
      let code := resp1.error.getD ""
      if TOKEN_ERROR_CODES.contains code && canRefresh auth1 then
        match auth1 with
        | .webhook _ =>
          { outcome := .error (.api code (resp1.error_description.getD "") method)
            finalAuth := auth1, events := evs0 ++ [.acquire, .post body1] }
        | .oauth o1 =>
          match applyRefresh o1 now refreshOutcome with
          | .error e =>
            { outcome := .error (.oauth e), finalAuth := auth1
              events := evs0 ++ [.acquire, .post body1, .refreshHttp] }
          | .ok o2 =>
            let body2 := mergeAuthBody params (getAuthParams (.oauth o2))
            if truthy resp2.error then
              { outcome := .error (.api (resp2.error.getD "")
                  (resp2.error_description.getD "") method)
                finalAuth := .oauth o2
                events := evs0 ++ [.acquire, .post body1, .refreshHttp, .acquire, .post body2] }
            else
              { outcome := .ok resp2.result, finalAuth := .oauth o2
                events := evs0 ++ [.acquire, .post body1, .refreshHttp, .acquire, .post body2] }
      else
        { outcome := .error (.api code (resp1.error_description.getD "") method)
          finalAuth := auth1, events := evs0 ++ [.acquire, .post body1] }
    else
      { outcome := .ok resp1.result, finalAuth := auth1
        events := evs0 ++ [.acquire, .post body1] }

/-- Number of POSTs issued during one `callMethod`. -/
def countPosts (evs : List CallEv) : Nat :=
  (evs.filter (fun e => match e with | .post _ => true | _ => false)).length

/-- C1: when the first POST answers with a token-invalid error code and
the credential has refresh prerequisites, `callMethod` forces a refresh,
re-acquires a limiter slot, and retries the POST exactly once with the
refreshed `auth` parameter; a second error raises a typed API error with
`{code, description, methodName}`; a refresh failure propagates the
distinct OAuth-typed error instead (with no retry POST); never more than
one retry happens (at most two POSTs in total). -/
theorem callMethod_token_retry
    (o : OAuthAuth) (now : Int) (method : String) (params : List (String × String))
    (resp1 resp2 : ApiResponse) (ro : Except OAuthErr TokenResp)
    (hexp : isTokenExpired o.expiresAt now = false)
    (herr : truthy resp1.error = true)
    (hcode : TOKEN_ERROR_CODES.contains (resp1.error.getD "") = true)
    (hcan : canRefresh (.oauth o) = true) :
    countPosts (callMethodM (.oauth o) now method params resp1 resp2 ro).events ≤ 2 ∧
    (∀ tr, ro = .ok tr →
      (callMethodM (.oauth o) now method params resp1 resp2 ro).events =
        [.acquire, .post (mergeAuthBody params [("auth", o.accessToken)]),
         .refreshHttp, .acquire,
         .post (mergeAuthBody params [("auth", tr.access_token)])] ∧
      (truthy resp2.error = true →
        (callMethodM (.oauth o) now method params resp1 resp2 ro).outcome =
          .error (.api (resp2.error.getD "") (resp2.error_description.getD "") method)) ∧
      (truthy resp2.error = false →
        (callMethodM (.oauth o) now method params resp1 resp2 ro).outcome =
          .ok resp2.result)) ∧
    (∀ e, ro = .error e →
      (callMethodM (.oauth o) now method params resp1 resp2 ro).outcome =
        .error (.oauth e) ∧
      countPosts (callMethodM (.oauth o) now method params resp1 resp2 ro).events = 1) := by
  have h0 : refreshIfNeededM (.oauth o) now ro = .ok (.oauth o, []) := by
    simp [refreshIfNeededM, hexp]
  have hred : ∀ (X : CallResult),
      (match applyRefresh o now ro with
        | .error e =>
          { outcome := .error (.oauth e), finalAuth := BitrixAuth.oauth o
            events := [] ++ [.acquire,
              .post (mergeAuthBody params (getAuthParams (.oauth o))), .refreshHttp] }
        | .ok o2 =>
          if truthy resp2.error then
            { outcome := .error (.api (resp2.error.getD "")
                (resp2.error_description.getD "") method)
              finalAuth := .oauth o2
              events := [] ++ [.acquire,
                .post (mergeAuthBody params (getAuthParams (.oauth o))), .refreshHttp,
                .acquire, .post (mergeAuthBody params (getAuthParams (.oauth o2)))] }
          else
            { outcome := .ok resp2.result, finalAuth := .oauth o2
              events := [] ++ [.acquire,
                .post (mergeAuthBody params (getAuthParams (.oauth o))), .refreshHttp,
                .acquire, .post (mergeAuthBody params (getAuthParams (.oauth o2)))] }) = X →
      callMethodM (.oauth o) now method params resp1 resp2 ro = X := by
    intro X hX
    rw [← hX]
    simp only [callMethodM, h0, herr, hcode, hcan, Bool.and_self, if_true]
  refine ⟨?_, ?_, ?_⟩
  · cases ro with
    | ok tr =>
      rw [hred _ rfl]
      by_cases h2 : truthy resp2.error
      · simp only [applyRefresh, h2, if_true]
        simp [countPosts]
      · simp only [applyRefresh, if_neg h2]
        simp [countPosts]
    | error e =>
      rw [hred _ rfl]
      simp only [applyRefresh]
      simp [countPosts]
  · intro tr htr
    subst htr
    rw [hred _ rfl]
    simp only [applyRefresh]
    refine ⟨?_, ?_, ?_⟩
    · by_cases h2 : truthy resp2.error
      · simp only [h2, if_true]
        simp [getAuthParams]
      · simp only [if_neg h2]
        simp [getAuthParams]
    · intro h2
      simp only [h2, if_true]
    · intro h2
      rw [if_neg (by simp [h2])]
  · intro e he
    subst he
    rw [hred _ rfl]
    simp only [applyRefresh]
    exact ⟨by simp, by simp [countPosts]⟩

/-- Witness for `callMethod_token_retry`: a concrete expired-token call
that refreshes and succeeds on the retry. -/
theorem callMethod_token_retry_witness :
    (callMethodM
        (.oauth ⟨"oldA", some "oldR", none, some "cid", some "csec"⟩) 0 "user.current"
        [] ⟨"", some "expired_token", some "expired"⟩ ⟨"ok", none, none⟩
        (.ok ⟨"newA", "newR", 3600⟩)).outcome = .ok "ok" ∧
    countPosts (callMethodM
        (.oauth ⟨"oldA", some "oldR", none, some "cid", some "csec"⟩) 0 "user.current"
        [] ⟨"", some "expired_token", some "expired"⟩ ⟨"ok", none, none⟩
        (.ok ⟨"newA", "newR", 3600⟩)).events = 2 := by
  have h := callMethod_token_retry
    ⟨"oldA", some "oldR", none, some "cid", some "csec"⟩ 0 "user.current"
    [] ⟨"", some "expired_token", some "expired"⟩ ⟨"ok", none, none⟩
    (.ok ⟨"newA", "newR", 3600⟩) (by decide) (by decide) (by decide) (by decide)
  refine ⟨(h.2.1 ⟨"newA", "newR", 3600⟩ rfl).2.2 (by decide), ?_⟩
  rw [(h.2.1 ⟨"newA", "newR", 3600⟩ rfl).1]
  decide

theorem lookup_map_overwrite (k v : String) :
    ∀ params : List (String × String), params.any (fun kv => kv.1 = k) = true →
      (params.map (fun kv => if kv.1 = k then (k, v) else kv)).lookup k = some v := by
  intro params
  induction params with
  | nil => intro h; simp at h
  | cons kv rest ih =>
    obtain ⟨a, b⟩ := kv
    intro h
    by_cases hk : a = k
    · subst hk
      simp [List.lookup_cons]
    · have hka : k ≠ a := fun e => hk e.symm
      have h' : rest.any (fun kv => kv.1 = k) = true := by
        simp only [List.any_cons] at h
        cases hd : decide (a = k) with
        | true => exact absurd (of_decide_eq_true hd) hk
        | false => rw [hd, Bool.false_or] at h; exact h
      simp only [List.map_cons]
      rw [if_neg hk]
      rw [List.lookup_cons]
      simp only [beq_false_of_ne hka]
      exact ih h'

theorem lookup_append_new (k v : String) :
    ∀ params : List (String × String), params.any (fun kv => kv.1 = k) = false →
      (params ++ [(k, v)]).lookup k = some v := by
  intro params
  induction params with
  | nil => intro _; simp [List.lookup_cons]
  | cons kv rest ih =>
    obtain ⟨a, b⟩ := kv
    intro h
    simp only [List.any_cons] at h
    have hsplit : decide (a = k) = false ∧ rest.any (fun kv => kv.1 = k) = false := by
      cases hd : decide (a = k) with
      | true => rw [hd] at h; simp at h
      | false => rw [hd, Bool.false_or] at h; exact ⟨rfl, h⟩
    have hka : k ≠ a := fun e => (of_decide_eq_false hsplit.1) e.symm
    simp only [List.cons_append]
    rw [List.lookup_cons]
    simp only [beq_false_of_ne hka]
    exact ih hsplit.2

theorem spreadSet_lookup_self (k v : String) (params : List (String × String)) :
    (spreadSet params k v).lookup k = some v := by
  simp only [spreadSet]
  split_ifs with h
  · exact lookup_map_overwrite k v params h
  · exact lookup_append_new k v params (Bool.eq_false_iff.mpr h)

theorem spreadSet_lookup_other (k v kq : String) (hne : kq ≠ k) :
    ∀ params : List (String × String),
      (spreadSet params k v).lookup kq = params.lookup kq := by
  have hmap : ∀ params : List (String × String),
      (params.map (fun kv => if kv.1 = k then (k, v) else kv)).lookup kq =
        params.lookup kq := by
    intro params
    induction params with
    | nil => simp
    | cons kv rest ih =>
      obtain ⟨a, b⟩ := kv
      by_cases hk : a = k
      · have hhead : (if a = k then (k, v) else (a, b)) = (k, v) := if_pos hk
        have hnea : kq ≠ a := by rw [hk]; exact hne
        simp only [List.map_cons, hhead]
        rw [List.lookup_cons, List.lookup_cons]
        simp only [beq_false_of_ne hne, beq_false_of_ne hnea]
        exact ih
      · have hhead : (if a = k then (k, v) else (a, b)) = (a, b) := if_neg hk
        simp only [List.map_cons, hhead]
        rw [List.lookup_cons, List.lookup_cons]
        cases hq : (kq == a) with
        | true => rfl
        | false => exact ih
  have happ : ∀ params : List (String × String),
      ((params ++ [(k, v)]) : List (String × String)).lookup kq = params.lookup kq := by
    intro params
    induction params with
    | nil =>
      simp only [List.nil_append]
      rw [List.lookup_cons]
      simp [beq_false_of_ne hne]
    | cons kv rest ih =>
      obtain ⟨a, b⟩ := kv
      simp only [List.cons_append]
      rw [List.lookup_cons, List.lookup_cons]
      cases hq : (kq == a) with
      | true => rfl
      | false => exact ih
  intro params
  simp only [spreadSet]
  split_ifs with h
  · exact hmap params
  · exact happ params

/-- C9: for OAuth credentials the POST body of `callMethod` is `params`
with `auth` overridden by the stored access token (a caller-supplied
`auth` key is always overwritten); for webhook credentials the body is
exactly `params`.  Stated both on the body constructor and on the first
POST event actually issued by `callMethod` (assuming the proactive
refresh does not fire). -/
theorem callMethod_body_auth
    (o : OAuthAuth) (url : String) (now : Int) (method : String)
    (params : List (String × String)) (resp1 resp2 : ApiResponse)
    (ro : Except OAuthErr TokenResp)
    (hexp : isTokenExpired o.expiresAt now = false) :
    (mergeAuthBody params (getAuthParams (.oauth o))).lookup "auth" =
      some o.accessToken ∧
    (∀ kq, kq ≠ "auth" →
      (mergeAuthBody params (getAuthParams (.oauth o))).lookup kq =
        params.lookup kq) ∧
    mergeAuthBody params (getAuthParams (.webhook url)) = params ∧
    (callMethodM (.oauth o) now method params resp1 resp2 ro).events.take 2 =
      [.acquire, .post (mergeAuthBody params (getAuthParams (.oauth o)))] ∧
    (callMethodM (.webhook url) now method params resp1 resp2 ro).events.take 2 =
      [.acquire, .post params] := by
  have hmerge : mergeAuthBody params (getAuthParams (.oauth o)) =
      spreadSet params "auth" o.accessToken := rfl
  have h0 : refreshIfNeededM (.oauth o) now ro = .ok (.oauth o, []) := by
    simp [refreshIfNeededM, hexp]
  refine ⟨?_, ?_, rfl, ?_, ?_⟩
  · rw [hmerge]; exact spreadSet_lookup_self "auth" o.accessToken params
  · intro kq hq
    rw [hmerge]; exact spreadSet_lookup_other "auth" o.accessToken kq hq params
  · simp only [callMethodM, h0]
    cases ro with
    | error e =>
      simp only [applyRefresh]
      split_ifs <;> simp
    | ok tr =>
      simp only [applyRefresh]
      split_ifs <;> simp
  · have h0w : refreshIfNeededM (.webhook url) now ro = .ok (.webhook url, []) := rfl
    simp only [callMethodM, h0w]
    have hbody : mergeAuthBody params (getAuthParams (.webhook url)) = params := rfl
    split_ifs <;> simp [hbody]

/-- Witness for `callMethod_body_auth`: a caller-supplied `auth` key is
overwritten by the credential's access token. -/
theorem callMethod_body_auth_witness :
    (mergeAuthBody [("auth", "spoofed"), ("x", "1")]
        (getAuthParams (.oauth ⟨"tok", none, none, none, none⟩))).lookup "auth" =
      some "tok" ∧
    (mergeAuthBody [("auth", "spoofed"), ("x", "1")]
        (getAuthParams (.oauth ⟨"tok", none, none, none, none⟩))).lookup "x" =
      [(("auth" : String), ("spoofed" : String)), ("x", "1")].lookup "x" ∧
    mergeAuthBody [("a", "1")] (getAuthParams (.webhook "https://x/rest/1/s/")) =
      [(("a" : String), ("1" : String))] := by
  have h := callMethod_body_auth ⟨"tok", none, none, none, none⟩ "https://x/rest/1/s/"
    0 "m" [("auth", "spoofed"), ("x", "1")] ⟨"", none, none⟩ ⟨"", none, none⟩
    (.error ⟨"e", "d"⟩) (by decide)
  have h2 := callMethod_body_auth ⟨"tok", none, none, none, none⟩ "https://x/rest/1/s/"
    0 "m" [("a", "1")] ⟨"", none, none⟩ ⟨"", none, none⟩
    (.error ⟨"e", "d"⟩) (by decide)
  exact ⟨h.1, h.2.1 "x" (by decide), h2.2.2.1⟩

/-! ### Refresh persistence callback (`send.ts`, `doRefresh`) -/

/-- Events of one successful `doRefresh` run, in program order. -/
inductive RefreshEv
  | refreshHttpCall
  | memoryUpdate (accessToken refreshToken : String) (expiresAt : Int)
  | persistInvoke (accessToken refreshToken : String) (expiresAt : Int)
  | persistSettle
  | refreshComplete
deriving DecidableEq, Repr

/-- The successful-path event trace of `doRefresh` (`send.ts` lines
287-307), translated await-for-await: `refreshTokens` is awaited, the
three in-memory token fields are assigned, and then the persistence
callback `this.config.onTokenRefresh?.({...})` is invoked and awaited
(the `await` on line 302) before `doRefresh`'s own promise resolves.
When no callback is configured the optional call is skipped. -/
def doRefreshTrace (tr : TokenResp) (now : Int) (hasCallback : Bool) :
    List RefreshEv :=
  [.refreshHttpCall,
   .memoryUpdate tr.access_token tr.refresh_token
     (expiresAtFromResponse now tr.expires_in)] ++
  (if hasCallback then
    [.persistInvoke tr.access_token tr.refresh_token
       (expiresAtFromResponse now tr.expires_in),
     .persistSettle]
   else []) ++
  [.refreshComplete]

/-- `true` for every event other than the persistence callback
settling; used to split a refresh trace at `persistSettle`. -/
def notSettle : RefreshEv → Bool
  | .persistSettle => false
  | _ => true

/-- C4 (amended): after a successful refresh the coordinator invokes the
persistence callback with the new `{accessToken, refreshToken,
expiresAt}` triple, but it is NOT fire-and-forget: `doRefresh` awaits
the callback, so the refresh operation completes only after the
callback settles (when a callback is configured). -/
theorem doRefresh_awaits_persistence (tr : TokenResp) (now : Int) :
    RefreshEv.persistInvoke tr.access_token tr.refresh_token
        (expiresAtFromResponse now tr.expires_in) ∈ doRefreshTrace tr now true ∧
    RefreshEv.refreshComplete ∉
      (doRefreshTrace tr now true).takeWhile notSettle ∧
    (∀ ev ∈ doRefreshTrace tr now false, ev ≠ RefreshEv.persistSettle) := by
  refine ⟨?_, ?_, ?_⟩
  · simp [doRefreshTrace]
  · simp [doRefreshTrace, List.takeWhile, notSettle]
  · intro ev hev
    simp [doRefreshTrace] at hev
    rcases hev with rfl | rfl | rfl <;> simp

/-- C4 counterexample: on the concrete successful refresh below,
`refreshComplete` occurs strictly after `persistSettle` — the refresh
operation's completion does depend on the persistence callback
settling, contradicting the fire-and-forget claim. -/
theorem doRefresh_claim_counterexample :
    RefreshEv.refreshComplete ∈
      (doRefreshTrace ⟨"a", "r", 3600⟩ 0 true).dropWhile notSettle ∧
    RefreshEv.refreshComplete ∉
      (doRefreshTrace ⟨"a", "r", 3600⟩ 0 true).takeWhile notSettle := by
  decide

/-- Witness for `doRefresh_awaits_persistence` at a concrete refresh. -/
theorem doRefresh_awaits_persistence_witness :
    RefreshEv.persistInvoke "a" "r" (expiresAtFromResponse 0 3600) ∈
      doRefreshTrace ⟨"a", "r", 3600⟩ 0 true :=
  (doRefresh_awaits_persistence ⟨"a", "r", 3600⟩ 0).1

/-! ### Refresh coalescing (`send.ts`, `doRefreshCoalesced`)

A small interleaving model of `doRefreshCoalesced` under the JS
run-to-completion semantics.  Each caller that needs a refresh executes
the body once: the `refreshPromise` check, the assignment, and the start
of the refresh HTTP call happen with no intervening `await`, so they
form one atomic step (`check`).  A promise settles in a separate
environment step (`settle`), after which the awaiting callers resume;
the owner's `finally` clears the handle (`resumeOwner`). -/

/-- Program counter of one caller of `doRefreshCoalesced`. -/
inductive CallerPC
  | ready
  | waitOwn (p : Nat)
  | waitOther (p : Nat)
  | done
deriving DecidableEq, Repr

/-- Shared state: `handle` is `this.refreshPromise`, `nStarted` counts
physical refresh HTTP calls started so far (promise ids `0, 1, …`),
`settled` the ids that have settled. -/
structure CoalesceState where
  handle : Option Nat
  nStarted : Nat
  settled : List Nat
  callers : List CallerPC
deriving DecidableEq, Repr

/-- `k` callers about to run `doRefreshCoalesced`, no refresh in flight. -/
def CoalesceState.init (k : Nat) : CoalesceState :=
  ⟨none, 0, [], List.replicate k .ready⟩

/-- Scheduler labels. -/
inductive CoalesceLabel
  | check (i : Nat)
  | settle (p : Nat)
  | resumeOwner (i : Nat)
  | resumeOther (i : Nat)
deriving DecidableEq, Repr

def CoalesceLabel.isSettle : CoalesceLabel → Bool
  | .settle _ => true
  | _ => false

def CoalesceLabel.isCheck : CoalesceLabel → Bool
  | .check _ => true
  | _ => false

/-- One scheduler step; `none` when the label is not enabled. -/
def applyStep (s : CoalesceState) : CoalesceLabel → Option CoalesceState
  | .check i =>
    match s.callers.get? i with
    | some .ready =>
      match s.handle with
      | some p => some { s with callers := s.callers.set i (.waitOther p) }
      | none => some { s with
        handle := some s.nStarted
        nStarted := s.nStarted + 1
        callers := s.callers.set i (.waitOwn s.nStarted) }
    | _ => none
  | .settle p =>
    if p < s.nStarted ∧ p ∉ s.settled then
      some { s with settled := p :: s.settled }
    else none
  | .resumeOwner i =>
    match s.callers.get? i with
    | some (.waitOwn p) =>
      if p ∈ s.settled then
        some { s with handle := none, callers := s.callers.set i .done }
      else none
    | _ => none
  | .resumeOther i =>
    match s.callers.get? i with
    | some (.waitOther p) =>
      if p ∈ s.settled then some { s with callers := s.callers.set i .done }
      else none
    | _ => none

/-- Run a whole schedule. -/
def runTrace (s : CoalesceState) : List CoalesceLabel → Option CoalesceState
  | [] => some s
  | l :: ls =>
    match applyStep s l with
    | none => none
    | some s' => runTrace s' ls

/-- Refresh HTTP calls started but not yet settled. -/
def outstanding (s : CoalesceState) : Nat :=
  ((List.range s.nStarted).filter (fun p => p ∉ s.settled)).length

/-- The coalescing invariant: every started promise other than the one
held in `refreshPromise` has settled; the held id is a started one; no
caller has moved before the first start; an owner-waiter's promise is
exactly the held one; and there is at most one owner-waiter. -/
def CoInv (s : CoalesceState) : Prop :=
  (∀ p, p < s.nStarted → s.handle ≠ some p → p ∈ s.settled) ∧
  (∀ p, s.handle = some p → p < s.nStarted) ∧
  (s.nStarted = 0 → ∀ c ∈ s.callers, c = .ready) ∧
  (∀ i p, s.callers.get? i = some (.waitOwn p) → s.handle = some p) ∧
  (∀ i j p q, s.callers.get? i = some (.waitOwn p) →
    s.callers.get? j = some (.waitOwn q) → i = j)

theorem applyStep_inv (s s' : CoalesceState) (l : CoalesceLabel)
    (hs : CoInv s) (h : applyStep s l = some s') : CoInv s' := by
  obtain ⟨i1, i2, i3, i4, i5⟩ := hs
  cases l with
  | check i =>
    simp only [applyStep] at h
    cases hget : s.callers.get? i with
    | none => rw [hget] at h; exact absurd h (by simp)
    | some c =>
      rw [hget] at h
      cases c with
      | ready =>
        cases hh : s.handle with
        | some p =>
          rw [hh] at h
          injection h with h
          subst h
          refine ⟨fun q hq hne => i1 q hq (by rw [hh]; exact hne),
            fun q hq => i2 q (by rw [hh]; exact hq), ?_, ?_, ?_⟩
          · intro h0
            have h0' : s.nStarted = 0 := h0
            exact absurd (i2 p hh) (by omega)
          · intro j q hj
            by_cases hij : j = i
            · subst hij
              rw [List.get?_set_eq_of_lt _ (by
                by_contra hL
                rw [List.get?_eq_none.mpr (le_of_not_lt hL)] at hget
                exact absurd hget (by simp))] at hj
              exact absurd hj (by simp)
            · rw [List.get?_set_ne _ _ (fun e => hij e.symm)] at hj
              have := i4 j q hj
              rw [hh] at this
              exact this
          · intro j k q q' hj hk
            by_cases hij : j = i
            · subst hij
              rw [List.get?_set_eq_of_lt _ (by
                by_contra hL
                rw [List.get?_eq_none.mpr (le_of_not_lt hL)] at hget
                exact absurd hget (by simp))] at hj
              exact absurd hj (by simp)
            · by_cases hik : k = i
              · subst hik
                rw [List.get?_set_eq_of_lt _ (by
                  by_contra hL
                  rw [List.get?_eq_none.mpr (le_of_not_lt hL)] at hget
                  exact absurd hget (by simp))] at hk
                exact absurd hk (by simp)
              · rw [List.get?_set_ne _ _ (fun e => hij e.symm)] at hj
                rw [List.get?_set_ne _ _ (fun e => hik e.symm)] at hk
                exact i5 j k q q' hj hk
        | none =>
          rw [hh] at h
          injection h with h
          subst h
          have hlen : i < s.callers.length := by
            by_contra hL
            rw [List.get?_eq_none.mpr (le_of_not_lt hL)] at hget
            exact absurd hget (by simp)
          refine ⟨?_, ?_, ?_, ?_, ?_⟩
          · intro q hq hne
            have hqn : q ≠ s.nStarted := fun e => hne (by simp [e])
            have hq' : q < s.nStarted := by
              have : q < s.nStarted + 1 := hq
              omega
            exact i1 q hq' (by rw [hh]; simp)
          · intro q hq
            have : q = s.nStarted := by
              have := hq
              simp only [] at this
              injection this with this
              omega
            simp [this]
          · intro h0
            exact absurd h0 (by simp)
          · intro j q hj
            by_cases hij : j = i
            · subst hij
              rw [List.get?_set_eq_of_lt _ hlen] at hj
              injection hj with hj
              injection hj with hj
              simp [hj]
            · rw [List.get?_set_ne _ _ (fun e => hij e.symm)] at hj
              exact absurd (i4 j q hj) (by rw [hh]; simp)
          · intro j k q q' hj hk
            by_cases hij : j = i
            · by_cases hik : k = i
              · rw [hij, hik]
              · rw [List.get?_set_ne _ _ (fun e => hik e.symm)] at hk
                exact absurd (i4 k q' hk) (by rw [hh]; simp)
            · rw [List.get?_set_ne _ _ (fun e => hij e.symm)] at hj
              exact absurd (i4 j q hj) (by rw [hh]; simp)
      | waitOwn p => exact absurd h (by simp)
      | waitOther p => exact absurd h (by simp)
      | done => exact absurd h (by simp)
  | settle p =>
    simp only [applyStep] at h
    split_ifs at h with hc
    · injection h with h
      subst h
      refine ⟨?_, i2, ?_, i4, i5⟩
      · intro q hq hne
        exact List.mem_cons_of_mem _ (i1 q hq hne)
      · intro h0
        have h0' : s.nStarted = 0 := h0
        exact absurd hc.1 (by omega)
  | resumeOwner i =>
    simp only [applyStep] at h
    cases hget : s.callers.get? i with
    | none => rw [hget] at h; exact absurd h (by simp)
    | some c =>
      rw [hget] at h
      cases c with
      | waitOwn p =>
        have h' : (if p ∈ s.settled then
            some { s with handle := none, callers := s.callers.set i CallerPC.done }
          else none) = some s' := h
        split_ifs at h' with hmem
        · injection h' with h'
          subst h'
          have hip : s.handle = some p := i4 i p hget
          refine ⟨?_, ?_, ?_, ?_, ?_⟩
          · intro q hq _
            by_cases hqh : s.handle = some q
            · rw [hip] at hqh
              injection hqh with hqh
              rw [← hqh]
              exact hmem
            · exact i1 q hq hqh
          · intro q hq
            exact absurd hq (by simp)
          · intro h0
            have := i3 h0 _ (List.get?_mem hget)
            exact absurd this (by simp)
          · intro j q hj
            by_cases hij : j = i
            · subst hij
              rw [List.get?_set_eq_of_lt _ (by
                by_contra hL
                rw [List.get?_eq_none.mpr (le_of_not_lt hL)] at hget
                exact absurd hget (by simp))] at hj
              exact absurd hj (by simp)
            · rw [List.get?_set_ne _ _ (fun e => hij e.symm)] at hj
              exact absurd (i5 j i q p hj hget) hij
          · intro j k q q' hj hk
            by_cases hij : j = i
            · subst hij
              rw [List.get?_set_eq_of_lt _ (by
                by_contra hL
                rw [List.get?_eq_none.mpr (le_of_not_lt hL)] at hget
                exact absurd hget (by simp))] at hj
              exact absurd hj (by simp)
            · rw [List.get?_set_ne _ _ (fun e => hij e.symm)] at hj
              exact absurd (i5 j i q p hj hget) hij
      | ready => exact absurd h (by simp)
      | waitOther p => exact absurd h (by simp)
      | done => exact absurd h (by simp)
  | resumeOther i =>
    simp only [applyStep] at h
    cases hget : s.callers.get? i with
    | none => rw [hget] at h; exact absurd h (by simp)
    | some c =>
      rw [hget] at h
      cases c with
      | waitOther p =>
        have h' : (if p ∈ s.settled then
            some { s with callers := s.callers.set i CallerPC.done }
          else none) = some s' := h
        split_ifs at h' with hmem
        · injection h' with h'
          subst h'
          refine ⟨i1, i2, ?_, ?_, ?_⟩
          · intro h0
            have := i3 h0 _ (List.get?_mem hget)
            exact absurd this (by simp)
          · intro j q hj
            by_cases hij : j = i
            · subst hij
              rw [List.get?_set_eq_of_lt _ (by
                by_contra hL
                rw [List.get?_eq_none.mpr (le_of_not_lt hL)] at hget
                exact absurd hget (by simp))] at hj
              exact absurd hj (by simp)
            · rw [List.get?_set_ne _ _ (fun e => hij e.symm)] at hj
              exact i4 j q hj
          · intro j k q q' hj hk
            by_cases hij : j = i
            · subst hij
              rw [List.get?_set_eq_of_lt _ (by
                by_contra hL
                rw [List.get?_eq_none.mpr (le_of_not_lt hL)] at hget
                exact absurd hget (by simp))] at hj
              exact absurd hj (by simp)
            · by_cases hik : k = i
              · subst hik
                rw [List.get?_set_eq_of_lt _ (by
                  by_contra hL
                  rw [List.get?_eq_none.mpr (le_of_not_lt hL)] at hget
                  exact absurd hget (by simp))] at hk
                exact absurd hk (by simp)
              · rw [List.get?_set_ne _ _ (fun e => hij e.symm)] at hj
                rw [List.get?_set_ne _ _ (fun e => hik e.symm)] at hk
                exact i5 j k q q' hj hk
      | ready => exact absurd h (by simp)
      | waitOwn p => exact absurd h (by simp)
      | done => exact absurd h (by simp)

theorem init_inv (k : Nat) : CoInv (CoalesceState.init k) := by
  refine ⟨?_, ?_, ?_, ?_, ?_⟩
  · intro p hp; simp [CoalesceState.init] at hp
  · intro p hp; simp [CoalesceState.init] at hp
  · intro _ c hc
    simp only [CoalesceState.init] at hc
    exact List.eq_of_mem_replicate hc
  · intro i p hp
    have := List.get?_mem hp
    simp only [CoalesceState.init] at this
    have := List.eq_of_mem_replicate this
    exact absurd this (by simp)
  · intro i j p q hp _
    have := List.get?_mem hp
    simp only [CoalesceState.init] at this
    have := List.eq_of_mem_replicate this
    exact absurd this (by simp)

theorem runTrace_inv (t : List CoalesceLabel) :
    ∀ s s', CoInv s → runTrace s t = some s' → CoInv s' := by
  induction t with
  | nil =>
    intro s s' hs h
    simp only [runTrace] at h
    injection h with h
    exact h ▸ hs
  | cons l ls ih =>
    intro s s' hs h
    simp only [runTrace] at h
    cases ha : applyStep s l with
    | none => rw [ha] at h; exact absurd h (by simp)
    | some s1 =>
      rw [ha] at h
      exact ih s1 s' (applyStep_inv s s1 l hs ha) h

theorem outstanding_le_one (s : CoalesceState) (hs : CoInv s) : outstanding s ≤ 1 := by
  obtain ⟨i1, _, _, _, _⟩ := hs
  have hall : ∀ x ∈ (List.range s.nStarted).filter (fun p => p ∉ s.settled),
      s.handle = some x := by
    intro x hx
    have hmem := List.mem_filter.mp hx
    have hlt : x < s.nStarted := List.mem_range.mp hmem.1
    have hns : x ∉ s.settled := by simpa using hmem.2
    by_contra hne
    exact hns (i1 x hlt hne)
  have hnd : ((List.range s.nStarted).filter (fun p => p ∉ s.settled)).Nodup :=
    (List.nodup_range _).filter _
  have hout : outstanding s =
      ((List.range s.nStarted).filter (fun p => p ∉ s.settled)).length := rfl
  rw [hout]
  cases hL : (List.range s.nStarted).filter (fun p => p ∉ s.settled) with
  | nil => simp
  | cons a t =>
    cases t with
    | nil => simp
    | cons b t2 =>
      exfalso
      have ha := hall a (by rw [hL]; exact List.mem_cons_self _ _)
      have hb := hall b (by rw [hL]; simp)
      have hab : a = b := by
        rw [ha] at hb
        exact (Option.some.injEq _ _ ▸ hb :)
      rw [hL] at hnd
      rcases List.nodup_cons.mp hnd with ⟨hna, _⟩
      exact hna (by rw [hab]; simp)

/-- The in-flight handle is cleared only by the owner's `finally`, which
runs only after the refresh promise has settled. -/
theorem handle_cleared_after_settle (s s' : CoalesceState) (l : CoalesceLabel) (p : Nat)
    (hs : CoInv s) (h : applyStep s l = some s')
    (hh : s.handle = some p) (hc : s'.handle = none) : p ∈ s'.settled := by
  obtain ⟨_, _, _, i4, _⟩ := hs
  cases l with
  | check i =>
    simp only [applyStep] at h
    cases hget : s.callers.get? i with
    | none => rw [hget] at h; exact absurd h (by simp)
    | some c =>
      rw [hget] at h
      cases c with
      | ready =>
        rw [hh] at h
        injection h with h
        subst h
        exact absurd (show (some p : Option Nat) = none from hc) (by simp)
      | waitOwn q => exact absurd h (by simp)
      | waitOther q => exact absurd h (by simp)
      | done => exact absurd h (by simp)
  | settle q =>
    simp only [applyStep] at h
    split_ifs at h with hg
    injection h with h
    subst h
    have hcontra : s.handle = none := hc
    rw [hh] at hcontra
    exact absurd hcontra (by simp)
  | resumeOwner i =>
    simp only [applyStep] at h
    cases hget : s.callers.get? i with
    | none => rw [hget] at h; exact absurd h (by simp)
    | some c =>
      rw [hget] at h
      cases c with
      | waitOwn q =>
        have h' : (if q ∈ s.settled then
            some { s with handle := none, callers := s.callers.set i CallerPC.done }
          else none) = some s' := h
        split_ifs at h' with hmem
        injection h' with h'
        subst h'
        have : s.handle = some q := i4 i q hget
        rw [hh] at this
        injection this with this
        rw [this]
        exact hmem
      | ready => exact absurd h (by simp)
      | waitOther q => exact absurd h (by simp)
      | done => exact absurd h (by simp)
  | resumeOther i =>
    simp only [applyStep] at h
    cases hget : s.callers.get? i with
    | none => rw [hget] at h; exact absurd h (by simp)
    | some c =>
      rw [hget] at h
      cases c with
      | waitOther q =>
        have h' : (if q ∈ s.settled then
            some { s with callers := s.callers.set i CallerPC.done }
          else none) = some s' := h
        split_ifs at h' with hmem
        injection h' with h'
        subst h'
        have hcontra : s.handle = none := hc
        rw [hh] at hcontra
        exact absurd hcontra (by simp)
      | ready => exact absurd h (by simp)
      | waitOwn q => exact absurd h (by simp)
      | done => exact absurd h (by simp)

theorem runTrace_append (t1 t2 : List CoalesceLabel) :
    ∀ s, runTrace s (t1 ++ t2) =
      match runTrace s t1 with
      | none => none
      | some s1 => runTrace s1 t2 := by
  induction t1 with
  | nil => intro s; rfl
  | cons l ls ih =>
    intro s
    simp only [List.cons_append, runTrace]
    cases applyStep s l with
    | none => rfl
    | some s1 => exact ih s1

theorem applyStep_length (s s' : CoalesceState) (l : CoalesceLabel)
    (h : applyStep s l = some s') : s'.callers.length = s.callers.length := by
  cases l with
  | check i =>
    simp only [applyStep] at h
    cases hget : s.callers.get? i with
    | none => rw [hget] at h; exact absurd h (by simp)
    | some c =>
      rw [hget] at h
      cases c with
      | ready =>
        cases hh : s.handle with
        | some p =>
          rw [hh] at h; injection h with h; subst h
          exact List.length_set _ _ _
        | none =>
          rw [hh] at h; injection h with h; subst h
          exact List.length_set _ _ _
      | waitOwn q => exact absurd h (by simp)
      | waitOther q => exact absurd h (by simp)
      | done => exact absurd h (by simp)
  | settle q =>
    simp only [applyStep] at h
    split_ifs at h
    injection h with h
    subst h
    rfl
  | resumeOwner i =>
    simp only [applyStep] at h
    cases hget : s.callers.get? i with
    | none => rw [hget] at h; exact absurd h (by simp)
    | some c =>
      rw [hget] at h
      cases c with
      | waitOwn q =>
        have h' : (if q ∈ s.settled then
            some { s with handle := none, callers := s.callers.set i CallerPC.done }
          else none) = some s' := h
        split_ifs at h'
        injection h' with h'
        subst h'
        exact List.length_set _ _ _
      | ready => exact absurd h (by simp)
      | waitOther q => exact absurd h (by simp)
      | done => exact absurd h (by simp)
  | resumeOther i =>
    simp only [applyStep] at h
    cases hget : s.callers.get? i with
    | none => rw [hget] at h; exact absurd h (by simp)
    | some c =>
      rw [hget] at h
      cases c with
      | waitOther q =>
        have h' : (if q ∈ s.settled then
            some { s with callers := s.callers.set i CallerPC.done }
          else none) = some s' := h
        split_ifs at h'
        injection h' with h'
        subst h'
        exact List.length_set _ _ _
      | ready => exact absurd h (by simp)
      | waitOwn q => exact absurd h (by simp)
      | done => exact absurd h (by simp)

theorem runTrace_length (t : List CoalesceLabel) :
    ∀ s s', runTrace s t = some s' → s'.callers.length = s.callers.length := by
  induction t with
  | nil =>
    intro s s' h
    simp only [runTrace] at h
    injection h with h
    rw [h]
  | cons l ls ih =>
    intro s s' h
    simp only [runTrace] at h
    cases ha : applyStep s l with
    | none => rw [ha] at h; exact absurd h (by simp)
    | some s1 =>
      rw [ha] at h
      rw [ih s1 s' h, applyStep_length s s1 l ha]

/-- The state invariant of the no-settle prefix of a schedule: nothing
has settled, at most one refresh has started, and none has started
while the handle is still empty. -/
def Phase1Inv (s : CoalesceState) : Prop :=
  s.settled = [] ∧ s.nStarted ≤ 1 ∧ (s.handle = none → s.nStarted = 0)

theorem phase1 (t : List CoalesceLabel) :
    ∀ s s', (∀ l ∈ t, l.isSettle = false) → Phase1Inv s →
      runTrace s t = some s' → Phase1Inv s' := by
  induction t with
  | nil =>
    intro s s' _ hs h
    simp only [runTrace] at h
    injection h with h
    exact h ▸ hs
  | cons l ls ih =>
    intro s s' hns hs h
    simp only [runTrace] at h
    cases ha : applyStep s l with
    | none => rw [ha] at h; exact absurd h (by simp)
    | some s1 =>
      rw [ha] at h
      refine ih s1 s' (fun l hl => hns l (List.mem_cons_of_mem _ hl)) ?_ h
      obtain ⟨p1, p2, p3⟩ := hs
      cases l with
      | check i =>
        simp only [applyStep] at ha
        cases hget : s.callers.get? i with
        | none => rw [hget] at ha; exact absurd ha (by simp)
        | some c =>
          rw [hget] at ha
          cases c with
          | ready =>
            cases hh : s.handle with
            | some p =>
              rw [hh] at ha; injection ha with ha; subst ha
              exact ⟨p1, p2, fun hcontra =>
                absurd (show (some p : Option Nat) = none from hcontra) (by simp)⟩
            | none =>
              rw [hh] at ha; injection ha with ha; subst ha
              have h0 : s.nStarted = 0 := p3 hh
              refine ⟨p1, by show s.nStarted + 1 ≤ 1; omega, fun hcontra =>
                absurd (show (some s.nStarted : Option Nat) = none from hcontra) (by simp)⟩
          | waitOwn q => exact absurd ha (by simp)
          | waitOther q => exact absurd ha (by simp)
          | done => exact absurd ha (by simp)
      | settle q =>
        exact absurd (hns _ (List.mem_cons_self _ _)) (by simp [CoalesceLabel.isSettle])
      | resumeOwner i =>
        simp only [applyStep] at ha
        cases hget : s.callers.get? i with
        | none => rw [hget] at ha; exact absurd ha (by simp)
        | some c =>
          rw [hget] at ha
          cases c with
          | waitOwn q =>
            have ha' : (if q ∈ s.settled then
                some { s with handle := none, callers := s.callers.set i CallerPC.done }
              else none) = some s1 := ha
            rw [p1] at ha'
            exact absurd ha' (by simp)
          | ready => exact absurd ha (by simp)
          | waitOther q => exact absurd ha (by simp)
          | done => exact absurd ha (by simp)
      | resumeOther i =>
        simp only [applyStep] at ha
        cases hget : s.callers.get? i with
        | none => rw [hget] at ha; exact absurd ha (by simp)
        | some c =>
          rw [hget] at ha
          cases c with
          | waitOther q =>
            have ha' : (if q ∈ s.settled then
                some { s with callers := s.callers.set i CallerPC.done }
              else none) = some s1 := ha
            rw [p1] at ha'
            exact absurd ha' (by simp)
          | ready => exact absurd ha (by simp)
          | waitOwn q => exact absurd ha (by simp)
          | done => exact absurd ha (by simp)

theorem phase2 (t : List CoalesceLabel) :
    ∀ s s', (∀ l ∈ t, l.isCheck = false) → runTrace s t = some s' →
      s'.nStarted = s.nStarted := by
  induction t with
  | nil =>
    intro s s' _ h
    simp only [runTrace] at h
    injection h with h
    rw [h]
  | cons l ls ih =>
    intro s s' hnc h
    simp only [runTrace] at h
    cases ha : applyStep s l with
    | none => rw [ha] at h; exact absurd h (by simp)
    | some s1 =>
      rw [ha] at h
      have hrest := ih s1 s' (fun l hl => hnc l (List.mem_cons_of_mem _ hl)) h
      rw [hrest]
      cases l with
      | check i =>
        exact absurd (hnc _ (List.mem_cons_self _ _)) (by simp [CoalesceLabel.isCheck])
      | settle q =>
        simp only [applyStep] at ha
        split_ifs at ha
        injection ha with ha
        subst ha
        rfl
      | resumeOwner i =>
        simp only [applyStep] at ha
        cases hget : s.callers.get? i with
        | none => rw [hget] at ha; exact absurd ha (by simp)
        | some c =>
          rw [hget] at ha
          cases c with
          | waitOwn q =>
            have ha' : (if q ∈ s.settled then
                some { s with handle := none, callers := s.callers.set i CallerPC.done }
              else none) = some s1 := ha
            split_ifs at ha'
            injection ha' with ha'
            subst ha'
            rfl
          | ready => exact absurd ha (by simp)
          | waitOther q => exact absurd ha (by simp)
          | done => exact absurd ha (by simp)
      | resumeOther i =>
        simp only [applyStep] at ha
        cases hget : s.callers.get? i with
        | none => rw [hget] at ha; exact absurd ha (by simp)
        | some c =>
          rw [hget] at ha
          cases c with
          | waitOther q =>
            have ha' : (if q ∈ s.settled then
                some { s with callers := s.callers.set i CallerPC.done }
              else none) = some s1 := ha
            split_ifs at ha'
            injection ha' with ha'
            subst ha'
            rfl
          | ready => exact absurd ha (by simp)
          | waitOwn q => exact absurd ha (by simp)
          | done => exact absurd ha (by simp)

/-- C2: under the JS run-to-completion semantics of
`doRefreshCoalesced`, a schedule in which every caller runs its check
before the refresh settles (`k` genuinely concurrent callers) starts
exactly one physical refresh HTTP call; in every reachable state at most
one refresh call is outstanding; and any step that clears the in-flight
handle happens only after that promise has settled. -/
theorem refresh_coalescing (k : Nat) (t1 t2 : List CoalesceLabel) (s' : CoalesceState)
    (hk : 1 ≤ k)
    (h1 : ∀ l ∈ t1, l.isSettle = false)
    (h2 : ∀ l ∈ t2, l.isCheck = false)
    (hrun : runTrace (CoalesceState.init k) (t1 ++ t2) = some s')
    (hdone : ∀ c ∈ s'.callers, c = CallerPC.done) :
    s'.nStarted = 1 ∧
    (∀ (t : List CoalesceLabel) (s'' : CoalesceState),
        runTrace (CoalesceState.init k) t = some s'' → outstanding s'' ≤ 1) ∧
    (∀ (u u' : CoalesceState) (l : CoalesceLabel) (p : Nat),
        CoInv u → applyStep u l = some u' → u.handle = some p →
        u'.handle = none → p ∈ u'.settled) := by
  refine ⟨?_, ?_, ?_⟩
  · have happ := runTrace_append t1 t2 (CoalesceState.init k)
    rw [happ] at hrun
    cases hs1 : runTrace (CoalesceState.init k) t1 with
    | none => rw [hs1] at hrun; exact absurd hrun (by simp)
    | some s1 =>
      rw [hs1] at hrun
      have hp1 : Phase1Inv s1 :=
        phase1 t1 _ s1 h1 ⟨rfl, by simp [CoalesceState.init], fun _ => rfl⟩ hs1
      have hp2 : s'.nStarted = s1.nStarted := phase2 t2 s1 s' h2 hrun
      have hle : s'.nStarted ≤ 1 := hp2 ▸ hp1.2.1
      have hinvFull : CoInv s' := by
        have happ2 := runTrace_append t1 t2 (CoalesceState.init k)
        rw [hs1, hrun] at happ2
        exact runTrace_inv (t1 ++ t2) _ s' (init_inv k) happ2
      have hlen : s'.callers.length = k := by
        have := runTrace_length (t1 ++ t2) (CoalesceState.init k) s' (by
          rw [runTrace_append, hs1]; exact hrun)
        simpa [CoalesceState.init] using this
      have hne : s'.callers ≠ [] := by
        intro e
        rw [e] at hlen
        simp at hlen
        omega
      obtain ⟨c0, hc0⟩ : ∃ c, c ∈ s'.callers := by
        cases hcl : s'.callers with
        | nil => exact absurd hcl hne
        | cons a l => exact ⟨a, hcl ▸ List.mem_cons_self a l⟩
      have hge : s'.nStarted ≠ 0 := by
        intro h0
        have := hinvFull.2.2.1 h0 c0 hc0
        rw [hdone c0 hc0] at this
        exact absurd this (by simp)
      omega
  · intro t s'' h
    exact outstanding_le_one s'' (runTrace_inv t _ s'' (init_inv k) h)
  · intro u u' l p hu ha hh hc
    exact handle_cleared_after_settle u u' l p hu ha hh hc

/-- Witness for `refresh_coalescing`: two concurrent callers, one
refresh HTTP call, both complete. -/
theorem refresh_coalescing_witness :
    runTrace (CoalesceState.init 2)
      ([CoalesceLabel.check 0, CoalesceLabel.check 1] ++
        [CoalesceLabel.settle 0, CoalesceLabel.resumeOwner 0, CoalesceLabel.resumeOther 1]) =
      some ⟨none, 1, [0], [CallerPC.done, CallerPC.done]⟩ ∧
    (⟨none, 1, [0], [CallerPC.done, CallerPC.done]⟩ : CoalesceState).nStarted = 1 := by
  refine ⟨by decide, ?_⟩
  exact (refresh_coalescing 2 [CoalesceLabel.check 0, CoalesceLabel.check 1]
    [CoalesceLabel.settle 0, CoalesceLabel.resumeOwner 0, CoalesceLabel.resumeOther 1]
    ⟨none, 1, [0], [CallerPC.done, CallerPC.done]⟩
    (by decide) (by decide) (by decide) (by decide) (by decide)).1

/-! ### Markdown ↔ BB-code conversion (`format.ts`)

Each regex pass of `markdownToBBCode` / `bbCodeToMarkdown` is embedded
as a left-to-right scanner: at every position a matcher either fires
(returning the replacement and the number of characters the match
consumed) or the scanner advances one character, exactly as JS
`String.replace` with a `/g` regex.  Every matcher consumes at least
one character; the `max 1` in the generic scanner and its fuel argument
(`fuel = length` always suffices) only serve Lean's termination. -/

/-- Generic global-replace scanner (fuelled core). -/
def rewriteScanF (step : List Char → Option (List Char × Nat)) :
    Nat → List Char → List Char
  | _, [] => []
  | 0, s => s
  | f + 1, c :: rest =>
    match step (c :: rest) with
    | some (rep, n) => rep ++ rewriteScanF step f ((c :: rest).drop (max 1 n))
    | none => c :: rewriteScanF step f rest

/-- Generic global-replace scanner. -/
def rewriteScan (step : List Char → Option (List Char × Nat))
    (s : List Char) : List Char :=
  rewriteScanF step s.length s

/-- First start index of `pat` in a string. -/
def indexOfSub (pat : List Char) : List Char → Option Nat
  | [] => if pat.isPrefixOf ([] : List Char) then some 0 else none
  | c :: rest =>
    if pat.isPrefixOf (c :: rest) then some 0
    else (indexOfSub pat rest).map (· + 1)

/-- Shortest content length `i ≥ 1` (lazy `(.+?)`; no newline when
`noNl`) such that `closer` starts right after it. -/
def lazyClose (closer : List Char) (noNl : Bool) : List Char → Option Nat
  | [] => none
  | c :: rest =>
    if noNl && c = '\n' then none
    else if closer.isPrefixOf rest then some 1
    else (lazyClose closer noNl rest).map (· + 1)

/-- JS `\w`. -/
def isWordChar (c : Char) : Bool := c.isAlphanum || c = '_'

/-- Matcher for ```` /```[\w]*\n?([\s\S]*?)```/ → `[code]$1[/code]` ````. -/
def codeBlockM : List Char → Option (List Char × Nat)
  | [] => none
  | c :: rest =>
    if c = '`' then
      match rest with
      | '`' :: '`' :: rest2 =>
        let w := rest2.takeWhile isWordChar
        let r1 := rest2.drop w.length
        let nl : Nat := if r1.head? = some '\n' then 1 else 0
        let r2 := r1.drop nl
        match indexOfSub ['`', '`', '`'] r2 with
        | some i =>
          some ("[code]".data ++ r2.take i ++ "[/code]".data, 3 + w.length + nl + i + 3)
        | none => none
      | _ => none
    else none

/-- Matcher for `` /`([^`]+)`/ → `[code]$1[/code]` ``. -/
def inlineCodeM : List Char → Option (List Char × Nat)
  | [] => none
  | c :: rest =>
    if c = '`' then
      match indexOfSub ['`'] rest with
      | some i =>
        if 1 ≤ i then some ("[code]".data ++ rest.take i ++ "[/code]".data, i + 2)
        else none
      | none => none
    else none

/-- Matcher for `/\*\*(.+?)\*\*/ → [b]$1[/b]`. -/
def boldM : List Char → Option (List Char × Nat)
  | [] => none
  | c :: rest =>
    if c = '*' then
      match rest with
      | '*' :: rest2 =>
        match lazyClose ['*', '*'] true rest2 with
        | some i => some ("[b]".data ++ rest2.take i ++ "[/b]".data, 2 + i + 2)
        | none => none
      | _ => none
    else none

/-- Matcher for `/~~(.+?)~~/ → [s]$1[/s]`. -/
def strikeM : List Char → Option (List Char × Nat)
  | [] => none
  | c :: rest =>
    if c = '~' then
      match rest with
      | '~' :: rest2 =>
        match lazyClose ['~', '~'] true rest2 with
        | some i => some ("[s]".data ++ rest2.take i ++ "[/s]".data, 2 + i + 2)
        | none => none
      | _ => none
    else none

/-- Matcher for the link rule `/\[([^\]]+)\]\(([^)]+)\)/ →
[url=$2]$1[/url]`. -/
def linkM : List Char → Option (List Char × Nat)
  | [] => none
  | c :: rest =>
    if c = '[' then
      match indexOfSub [']'] rest with
      | some i =>
        if 1 ≤ i then
          match rest.drop (i + 1) with
          | '(' :: rest2 =>
            match indexOfSub [')'] rest2 with
            | some j =>
              if 1 ≤ j then
                some ("[url=".data ++ rest2.take j ++ [']'] ++ rest.take i ++
                  "[/url]".data, 1 + i + 1 + 1 + j + 1)
              else none
            | none => none
          | _ => none
        else none
      | none => none
    else none

/-- Lazy close for the italic rule: smallest `i ≥ 1` with no newline in
the content, a `*` right after it, and no `]` after that `*`
(the `(?!\])` lookahead). -/
def italicClose : List Char → Option Nat
  | [] => none
  | c :: rest =>
    if c = '\n' then none
    else
      match rest with
      | '*' :: rest2 =>
        if rest2.head? = some ']' then (italicClose rest).map (· + 1)
        else some 1
      | _ => (italicClose rest).map (· + 1)

/-- The italic pass `/(?<!\[)\*(.+?)\*(?!\])/ → [i]$1[/i]`, scanning
with the previous original character for the `(?<!\[)` lookbehind. -/
def italicScanF : Option Char → Nat → List Char → List Char
  | _, _, [] => []
  | _, 0, s => s
  | prev, f + 1, c :: rest =>
    if c = '*' ∧ prev ≠ some '[' then
      match italicClose rest with
      | some i =>
        "[i]".data ++ rest.take i ++ "[/i]".data ++
          italicScanF (some '*') f (rest.drop (i + 1))
      | none => c :: italicScanF (some c) f rest
    else c :: italicScanF (some c) f rest

def italicScan (s : List Char) : List Char := italicScanF none s.length s

/-- Split at `\n` (the `m`-flag line structure of the per-line rules). -/
def splitNl : List Char → List (List Char)
  | [] => [[]]
  | c :: rest =>
    if c = '\n' then [] :: splitNl rest
    else
      match splitNl rest with
      | [] => [[c]]
      | l :: ls => (c :: l) :: ls

def joinNl : List (List Char) → List Char
  | [] => []
  | [l] => l
  | l :: ls => l ++ '\n' :: joinNl ls

/-- Apply a per-line rewrite to every line (a `^…$`/`gm` regex pass
whose replacement contains no newline). -/
def applyLines (f : List Char → List Char) (s : List Char) : List Char :=
  joinNl ((splitNl s).map f)

/-- `\s+(.+)$` after a matched prefix, with the regex backtracking on an
all-whitespace tail: the greedy `\s+` gives one character back so that
`(.+)` is non-empty. -/
def wsPlusContent (rest1 : List Char) : Option (List Char) :=
  let w := rest1.takeWhile jsWs
  let r2 := rest1.dropWhile jsWs
  if w.isEmpty then none
  else if !r2.isEmpty then some r2
  else if 2 ≤ w.length then some (w.drop (w.length - 1))
  else none

/-- `/^#{1,6}\s+(.+)$/ → [b]$1[/b]` on one line. -/
def headingLine (line : List Char) : List Char :=
  let m := (line.takeWhile (fun c => c = '#')).length
  let rest1 := line.dropWhile (fun c => c = '#')
  if 1 ≤ m ∧ m ≤ 6 then
    match wsPlusContent rest1 with
    | some content => "[b]".data ++ content ++ "[/b]".data
    | none => line
  else line

/-- `/^[\s]*[-*]\s+(.+)$/ → '• $1'` on one line. -/
def listLine (line : List Char) : List Char :=
  match line.dropWhile jsWs with
  | c :: rest1 =>
    if c = '-' ∨ c = '*' then
      match wsPlusContent rest1 with
      | some content => '•' :: ' ' :: content
      | none => line
    else line
  | [] => line

/-- `/^[-*]{3,}$/ → 20 × '─'` on one line. -/
def hrLine (line : List Char) : List Char :=
  if 3 ≤ line.length ∧ line.all (fun c => c = '-' || c = '*') then
    List.replicate 20 '─'
  else line

/-- `/^>\s?(.*)$/ → $1` on one line. -/
def quoteLine (line : List Char) : List Char :=
  match line with
  | [] => line
  | c :: rest =>
    if c = '>' then
      match rest with
      | c2 :: rest2 => if jsWs c2 then rest2 else rest
      | [] => []
    else line

/-- `markdownToBBCode` (`format.ts` lines 11-48): the ten replacement
passes in source order. -/
def markdownToBBCode (md : List Char) : List Char :=
  let t1 := rewriteScan codeBlockM md
  let t2 := rewriteScan inlineCodeM t1
  let t3 := rewriteScan boldM t2
  let t4 := italicScan t3
  let t5 := rewriteScan strikeM t4
  let t6 := rewriteScan linkM t5
  let t7 := applyLines headingLine t6
  let t8 := applyLines listLine t7
  let t9 := applyLines hrLine t8
  applyLines quoteLine t9

/-- Case-insensitive prefix test (the regex `i` flag on ASCII tags). -/
def ciIsPrefix : List Char → List Char → Bool
  | [], _ => true
  | _ :: _, [] => false
  | p :: ps, c :: cs => p.toLower = c.toLower && ciIsPrefix ps cs

/-- First start index of a case-insensitive occurrence of `pat`. -/
def findCiSub (pat : List Char) : List Char → Option Nat
  | [] => if ciIsPrefix pat ([] : List Char) then some 0 else none
  | c :: rest =>
    if ciIsPrefix pat (c :: rest) then some 0
    else (findCiSub pat rest).map (· + 1)

/-- Matcher for a case-insensitive `[tag]…[/tag]` pair with lazy
content, replaced by `rep1 ++ content ++ rep2`. -/
def simpleTagM (tag rep1 rep2 : List Char) : List Char → Option (List Char × Nat)
  | [] => none
  | c :: rest =>
    if c = '[' then
      if ciIsPrefix (tag ++ [']']) rest then
        let rest2 := rest.drop (tag.length + 1)
        match findCiSub ('[' :: '/' :: tag ++ [']']) rest2 with
        | some i =>
          some (rep1 ++ rest2.take i ++ rep2,
            1 + tag.length + 1 + i + (tag.length + 3))
        | none => none
      else none
    else none

/-- Matcher for a case-insensitive `[tag=param]…[/tag]` pair
(`param = [^\]]+`, or `\d+` when `digitsOnly`); the replacement is
built from the parameter and the content. -/
def paramTagM (tag : List Char) (mk : List Char → List Char → List Char)
    (digitsOnly : Bool) : List Char → Option (List Char × Nat)
  | [] => none
  | c :: rest =>
    if c = '[' then
      if ciIsPrefix (tag ++ ['=']) rest then
        let rest1 := rest.drop (tag.length + 1)
        match indexOfSub [']'] rest1 with
        | some i =>
          if 1 ≤ i ∧ (!digitsOnly || (rest1.take i).all Char.isDigit) then
            let rest2 := rest1.drop (i + 1)
            match findCiSub ('[' :: '/' :: tag ++ [']']) rest2 with
            | some j =>
              some (mk (rest1.take i) (rest2.take j),
                1 + tag.length + 1 + i + 1 + j + (tag.length + 3))
            | none => none
          else none
        | none => none
      else none
    else none

/-- Matcher for `[quote]…[/quote]`, replaced by a `> `-prefixed block
(the function replacement in `format.ts` lines 90-95). -/
def quoteTagM : List Char → Option (List Char × Nat)
  | [] => none
  | c :: rest =>
    if c = '[' then
      if ciIsPrefix "quote]".data rest then
        let rest2 := rest.drop 6
        match findCiSub "[/quote]".data rest2 with
        | some i =>
          some (joinNl ((splitNl (rest2.take i)).map (fun l => '>' :: ' ' :: l)),
            1 + 6 + i + 8)
        | none => none
      else none
    else none

/-- Inner matcher of the list pass: `/\[\*\]\s*/ → '- '`. -/
def listItemM : List Char → Option (List Char × Nat)
  | [] => none
  | c :: rest =>
    if c = '[' then
      match rest with
      | '*' :: ']' :: rest2 => some (['-', ' '], 3 + (rest2.takeWhile jsWs).length)
      | _ => none
    else none

/-- Matcher for `[list]…[/list]` with the `[*] → '- '` rewrite and
`trim()` of the content (function replacement, `format.ts` lines 98-100). -/
def listTagM : List Char → Option (List Char × Nat)
  | [] => none
  | c :: rest =>
    if c = '[' then
      if ciIsPrefix "list]".data rest then
        let rest2 := rest.drop 5
        match findCiSub "[/list]".data rest2 with
        | some i =>
          some (jsTrim (rewriteScan listItemM (rest2.take i)), 1 + 5 + i + 7)
        | none => none
      else none
    else none

/-- Matcher for the final cleanup `/\[\/[a-zA-Z][^\]]*\]/ → ''`. -/
def closingTagM : List Char → Option (List Char × Nat)
  | [] => none
  | c :: rest =>
    if c = '[' then
      match rest with
      | '/' :: c2 :: rest2 =>
        if c2.isAlpha then
          match indexOfSub [']'] rest2 with
          | some i => some ([], 3 + i + 1)
          | none => none
        else none
      | _ => none
    else none

/-- `bbCodeToMarkdown` (`format.ts` lines 53-107): the fourteen
replacement passes in source order. -/
def bbCodeToMarkdown (bb : List Char) : List Char :=
  let t1 := rewriteScan (simpleTagM "code".data "```\n".data "\n```".data) bb
  let t2 := rewriteScan (simpleTagM "b".data "**".data "**".data) t1
  let t3 := rewriteScan (simpleTagM "i".data "*".data "*".data) t2
  let t4 := rewriteScan (simpleTagM "s".data "~~".data "~~".data) t3
  let t5 := rewriteScan (simpleTagM "u".data [] []) t4
  let t6 := rewriteScan
    (paramTagM "url".data (fun p c => '[' :: c ++ ']' :: '(' :: p ++ [')']) false) t5
  let t7 := rewriteScan (simpleTagM "url".data [] []) t6
  let t8 := rewriteScan (paramTagM "user".data (fun _ c => '@' :: c) true) t7
  let t9 := rewriteScan (paramTagM "color".data (fun _ c => c) false) t8
  let t10 := rewriteScan (paramTagM "size".data (fun _ c => c) false) t9
  let t11 := rewriteScan (simpleTagM "img".data "![](".data [')']) t10
  let t12 := rewriteScan quoteTagM t11
  let t13 := rewriteScan listTagM t12
  rewriteScan closingTagM t13

theorem rewriteScanF_id (step : List Char → Option (List Char × Nat))
    (bad : Char → Prop) (hstep : ∀ c rest, ¬ bad c → step (c :: rest) = none) :
    ∀ f s, (∀ c ∈ s, ¬ bad c) → rewriteScanF step f s = s := by
  intro f
  induction f with
  | zero => intro s _; cases s <;> rfl
  | succ n ih =>
    intro s hs
    cases s with
    | nil => rfl
    | cons c rest =>
      have hc := hstep c rest (hs c (List.mem_cons_self c rest))
      simp only [rewriteScanF, hc]
      rw [ih rest (fun x hx => hs x (List.mem_cons_of_mem c hx))]

theorem rewriteScan_id (step : List Char → Option (List Char × Nat))
    (bad : Char → Prop) (hstep : ∀ c rest, ¬ bad c → step (c :: rest) = none)
    (s : List Char) (hs : ∀ c ∈ s, ¬ bad c) : rewriteScan step s = s :=
  rewriteScanF_id step bad hstep s.length s hs

theorem italicScanF_id :
    ∀ (f : Nat) (prev : Option Char) (s : List Char),
      (∀ c ∈ s, c ≠ '*') → italicScanF prev f s = s := by
  intro f
  induction f with
  | zero => intro prev s _; cases s <;> rfl
  | succ n ih =>
    intro prev s hs
    cases s with
    | nil => rfl
    | cons c rest =>
      have hc : c ≠ '*' := hs c (List.mem_cons_self c rest)
      simp only [italicScanF]
      rw [if_neg (fun hx => hc hx.1)]
      rw [ih (some c) rest (fun x hx => hs x (List.mem_cons_of_mem c hx))]

theorem italicScan_id (s : List Char) (hs : ∀ c ∈ s, c ≠ '*') :
    italicScan s = s :=
  italicScanF_id s.length none s hs

theorem mem_of_mem_dropWhile (p : Char → Bool) (c : Char) :
    ∀ l : List Char, c ∈ l.dropWhile p → c ∈ l := by
  intro l
  induction l with
  | nil => intro h; simpa using h
  | cons a t ih =>
    intro h
    by_cases hp : p a
    · rw [List.dropWhile_cons_of_pos hp] at h
      exact List.mem_cons_of_mem _ (ih h)
    · rw [List.dropWhile_cons_of_neg hp] at h
      exact h

theorem splitNl_ne_nil : ∀ s : List Char, splitNl s ≠ [] := by
  intro s
  cases s with
  | nil => simp [splitNl]
  | cons c rest =>
    simp only [splitNl]
    split_ifs
    · simp
    · cases splitNl rest <;> simp

theorem joinNl_cons_ne (l : List Char) (ls : List (List Char)) (h : ls ≠ []) :
    joinNl (l :: ls) = l ++ '\n' :: joinNl ls := by
  cases ls with
  | nil => exact absurd rfl h
  | cons a t => rfl

theorem joinNl_splitNl : ∀ s : List Char, joinNl (splitNl s) = s := by
  intro s
  induction s with
  | nil => rfl
  | cons c rest ih =>
    simp only [splitNl]
    split_ifs with hc
    · rw [joinNl_cons_ne [] (splitNl rest) (splitNl_ne_nil rest), hc, List.nil_append, ih]
    · cases hsp : splitNl rest with
      | nil => exact absurd hsp (splitNl_ne_nil rest)
      | cons l ls =>
        rw [hsp] at ih
        cases ls with
        | nil =>
          show c :: l = c :: rest
          rw [show joinNl [l] = l from rfl] at ih
          rw [ih]
        | cons a t =>
          show (c :: l) ++ '\n' :: joinNl (a :: t) = c :: rest
          rw [joinNl_cons_ne l (a :: t) (by simp)] at ih
          rw [List.cons_append, ih]

theorem mem_splitNl_mem : ∀ (s l : List Char) (c : Char),
    l ∈ splitNl s → c ∈ l → c ∈ s := by
  intro s
  induction s with
  | nil =>
    intro l c hl hc
    simp [splitNl] at hl
    subst hl
    simp at hc
  | cons a rest ih =>
    intro l c hl hc
    simp only [splitNl] at hl
    by_cases ha : a = '\n'
    · rw [if_pos ha] at hl
      rcases List.mem_cons.mp hl with rfl | hl
      · simp at hc
      · exact List.mem_cons_of_mem a (ih l c hl hc)
    · rw [if_neg ha] at hl
      cases hsp : splitNl rest with
      | nil => exact absurd hsp (splitNl_ne_nil rest)
      | cons l0 ls =>
        rw [hsp] at hl
        rcases List.mem_cons.mp hl with rfl | hl
        · rcases List.mem_cons.mp hc with rfl | hc
          · exact List.mem_cons_self _ _
          · exact List.mem_cons_of_mem a (ih l0 c (by rw [hsp]; exact List.mem_cons_self _ _) hc)
        · exact List.mem_cons_of_mem a
            (ih l c (by rw [hsp]; exact List.mem_cons_of_mem l0 hl) hc)

theorem map_id_of_mem (f : List Char → List Char) :
    ∀ xs : List (List Char), (∀ x ∈ xs, f x = x) → xs.map f = xs := by
  intro xs
  induction xs with
  | nil => intro _; rfl
  | cons x t ih =>
    intro h
    rw [List.map_cons, h x (List.mem_cons_self x t),
      ih (fun y hy => h y (List.mem_cons_of_mem x hy))]

theorem applyLines_id (f : List Char → List Char) (P : Char → Prop)
    (hf : ∀ l : List Char, (∀ c ∈ l, P c) → f l = l)
    (s : List Char) (hs : ∀ c ∈ s, P c) : applyLines f s = s := by
  unfold applyLines
  rw [map_id_of_mem f (splitNl s)
    (fun l hl => hf l (fun c hc => hs c (mem_splitNl_mem s l c hl hc)))]
  exact joinNl_splitNl s

theorem headingLine_id (line : List Char) (h : ∀ c ∈ line, c ≠ '#') :
    headingLine line = line := by
  cases line with
  | nil => rfl
  | cons c rest =>
    have hc : ¬ (c = '#') := h c (List.mem_cons_self c rest)
    simp only [headingLine, List.takeWhile]
    rw [show (decide (c = '#')) = false by simpa using hc]
    simp

theorem listLine_id (line : List Char) (h : ∀ c ∈ line, c ≠ '-' ∧ c ≠ '*') :
    listLine line = line := by
  cases hd : line.dropWhile jsWs with
  | nil => simp [listLine, hd]
  | cons c rest1 =>
    have hcm : c ∈ line :=
      mem_of_mem_dropWhile jsWs c line (by rw [hd]; exact List.mem_cons_self _ _)
    have hneg : ¬ (c = '-' ∨ c = '*') := fun hx => hx.elim (h c hcm).1 (h c hcm).2
    simp [listLine, hd, hneg]

theorem hrLine_id (line : List Char) (h : ∀ c ∈ line, c ≠ '-' ∧ c ≠ '*') :
    hrLine line = line := by
  cases line with
  | nil => rfl
  | cons c rest =>
    have hc := h c (List.mem_cons_self c rest)
    simp only [hrLine]
    rw [if_neg]
    intro hx
    have hall := hx.2
    simp only [List.all_cons, Bool.and_eq_true] at hall
    have h1 := hall.1
    cases hd1 : decide (c = '-') with
    | true => exact hc.1 (of_decide_eq_true hd1)
    | false =>
      rw [hd1, Bool.false_or] at h1
      exact hc.2 (of_decide_eq_true h1)

theorem quoteLine_id (line : List Char) (h : ∀ c ∈ line, c ≠ '>') :
    quoteLine line = line := by
  cases line with
  | nil => rfl
  | cons c rest =>
    have hc : ¬ (c = '>') := h c (List.mem_cons_self c rest)
    simp [quoteLine, hc]

/-- C8: both conversion directions are the identity on any text that
contains none of the markup-trigger characters of either grammar. -/
theorem markup_plain_identity (s : List Char)
    (h : ∀ c ∈ s, c ∉ (['`', '*', '~', '[', ']', '#', '-', '>'] : List Char)) :
    markdownToBBCode s = s ∧ bbCodeToMarkdown s = s := by
  have hbt : ∀ c ∈ s, ¬ (c = '`') := fun c hc e => h c hc (by rw [e]; decide)
  have hst : ∀ c ∈ s, ¬ (c = '*') := fun c hc e => h c hc (by rw [e]; decide)
  have htl : ∀ c ∈ s, ¬ (c = '~') := fun c hc e => h c hc (by rw [e]; decide)
  have hlb : ∀ c ∈ s, ¬ (c = '[') := fun c hc e => h c hc (by rw [e]; decide)
  have hhs : ∀ c ∈ s, ¬ (c = '#') := fun c hc e => h c hc (by rw [e]; decide)
  have hmn : ∀ c ∈ s, c ≠ '-' ∧ c ≠ '*' :=
    fun c hc => ⟨fun e => h c hc (by rw [e]; decide), fun e => h c hc (by rw [e]; decide)⟩
  have hgt : ∀ c ∈ s, ¬ (c = '>') := fun c hc e => h c hc (by rw [e]; decide)
  constructor
  · simp only [markdownToBBCode]
    rw [rewriteScan_id codeBlockM (· = '`')
      (fun c rest hc => by simp [codeBlockM, hc]) s hbt]
    rw [rewriteScan_id inlineCodeM (· = '`')
      (fun c rest hc => by simp [inlineCodeM, hc]) s hbt]
    rw [rewriteScan_id boldM (· = '*')
      (fun c rest hc => by simp [boldM, hc]) s hst]
    rw [italicScan_id s hst]
    rw [rewriteScan_id strikeM (· = '~')
      (fun c rest hc => by simp [strikeM, hc]) s htl]
    rw [rewriteScan_id linkM (· = '[')
      (fun c rest hc => by simp [linkM, hc]) s hlb]
    rw [applyLines_id headingLine (¬ · = '#') headingLine_id s hhs]
    rw [applyLines_id listLine (fun c => c ≠ '-' ∧ c ≠ '*') listLine_id s hmn]
    rw [applyLines_id hrLine (fun c => c ≠ '-' ∧ c ≠ '*') hrLine_id s hmn]
    rw [applyLines_id quoteLine (¬ · = '>') quoteLine_id s hgt]
  · simp only [bbCodeToMarkdown]
    rw [rewriteScan_id _ (· = '[')
      (fun c rest hc => by simp [simpleTagM, hc]) s hlb]
    rw [rewriteScan_id _ (· = '[')
      (fun c rest hc => by simp [simpleTagM, hc]) s hlb]
    rw [rewriteScan_id _ (· = '[')
      (fun c rest hc => by simp [simpleTagM, hc]) s hlb]
    rw [rewriteScan_id _ (· = '[')
      (fun c rest hc => by simp [simpleTagM, hc]) s hlb]
    rw [rewriteScan_id _ (· = '[')
      (fun c rest hc => by simp [simpleTagM, hc]) s hlb]
    rw [rewriteScan_id _ (· = '[')
      (fun c rest hc => by simp [paramTagM, hc]) s hlb]
    rw [rewriteScan_id _ (· = '[')
      (fun c rest hc => by simp [simpleTagM, hc]) s hlb]
    rw [rewriteScan_id _ (· = '[')
      (fun c rest hc => by simp [paramTagM, hc]) s hlb]
    rw [rewriteScan_id _ (· = '[')
      (fun c rest hc => by simp [paramTagM, hc]) s hlb]
    rw [rewriteScan_id _ (· = '[')
      (fun c rest hc => by simp [paramTagM, hc]) s hlb]
    rw [rewriteScan_id _ (· = '[')
      (fun c rest hc => by simp [simpleTagM, hc]) s hlb]
    rw [rewriteScan_id quoteTagM (· = '[')
      (fun c rest hc => by simp [quoteTagM, hc]) s hlb]
    rw [rewriteScan_id listTagM (· = '[')
      (fun c rest hc => by simp [listTagM, hc]) s hlb]
    rw [rewriteScan_id closingTagM (· = '[')
      (fun c rest hc => by simp [closingTagM, hc]) s hlb]

/-- Witness for `markup_plain_identity` on a concrete plain string. -/
theorem markup_plain_identity_witness :
    markdownToBBCode "hello world".data = "hello world".data ∧
    bbCodeToMarkdown "hello world".data = "hello world".data :=
  markup_plain_identity "hello world".data (by decide)

/-! ### Incoming-message parsing (`receive.ts`, `parseMessageEvent`) -/

/-- The `USER` block of an `ONIMBOTMESSAGEADD` event (`types.ts`). -/
structure B24User where
  ID : Nat
  NAME : String
  FIRST_NAME : String
  LAST_NAME : String
  IS_BOT : String
deriving DecidableEq, Repr

/-- One entry of the event's `FILES` array (`types.ts`). -/
structure B24File where
  id : String
  name : String
  size : Nat
  type : String
deriving DecidableEq, Repr

/-- One entry of the event's `BOT` array (`types.ts`). -/
structure B24Bot where
  BOT_ID : Nat
  BOT_CODE : String
deriving DecidableEq, Repr

/-- The `PARAMS` block of an `ONIMBOTMESSAGEADD` event (`types.ts`). -/
structure B24MsgParams where
  DIALOG_ID : String
  MESSAGE_ID : Nat
  MESSAGE : List Char
  FILES : Option (List B24File)
  FROM_USER_ID : Nat
  TO_CHAT_ID : Option Nat
  CHAT_TYPE : String
deriving DecidableEq, Repr

/-- The optional `auth` block of an inbound event (`types.ts`). -/
structure B24EventAuth where
  domain : String
  application_token : Option String
deriving DecidableEq, Repr

structure B24Data where
  BOT : List B24Bot
  PARAMS : B24MsgParams
  USER : B24User
deriving DecidableEq, Repr

/-- `Bitrix24MessageEvent` (`types.ts`), restricted to the fields
`parseMessageEvent` reads. -/
structure Bitrix24MessageEvent where
  data : B24Data
  auth : Option B24EventAuth
deriving DecidableEq, Repr

structure FileAttachment where
  id : String
  name : String
  size : Nat
  type : String
deriving DecidableEq, Repr

/-- `IncomingMessage` (`types.ts`). -/
structure IncomingMessage where
  messageId : Nat
  dialogId : String
  chatId : Option Nat
  text : List Char
  fromUserId : Nat
  fromUserName : String
  fromUserLastName : String
  isBot : Bool
  chatType : String
  files : List FileAttachment
  domain : String
  applicationToken : Option String
  botId : Nat
  botCode : String
deriving DecidableEq, Repr

/-- The `IncomingMessage` record built in the return statement of
`parseMessageEvent` (`receive.ts` lines 31-46). -/
def mkIncoming (body : Bitrix24MessageEvent) (bot : B24Bot) : IncomingMessage :=
  { messageId := body.data.PARAMS.MESSAGE_ID
    dialogId := body.data.PARAMS.DIALOG_ID
    chatId := body.data.PARAMS.TO_CHAT_ID
    text := bbCodeToMarkdown body.data.PARAMS.MESSAGE
    fromUserId := body.data.PARAMS.FROM_USER_ID
    fromUserName :=
      if body.data.USER.FIRST_NAME ≠ "" then body.data.USER.FIRST_NAME
      else body.data.USER.NAME
    fromUserLastName := body.data.USER.LAST_NAME
    isBot := false
    chatType := body.data.PARAMS.CHAT_TYPE
    files := (body.data.PARAMS.FILES.getD []).map
      (fun f => { id := f.id, name := f.name, size := f.size, type := f.type })
    domain := (body.auth.map (fun a => a.domain)).getD ""
    applicationToken := body.auth.bind (fun a => a.application_token)
    botId := bot.BOT_ID
    botCode := bot.BOT_CODE }

/-- `parseMessageEvent` (`receive.ts` lines 13-47); `none` models the
`null` return for ignored events. -/
def parseMessageEvent (body : Bitrix24MessageEvent) : Option IncomingMessage :=
  if body.data.USER.IS_BOT = "Y" then none
  else
    match body.data.BOT.head? with
    | none => none
    | some bot => some (mkIncoming body bot)

theorem mkIncoming_text (body : Bitrix24MessageEvent) (bot : B24Bot) :
    (mkIncoming body bot).text = bbCodeToMarkdown body.data.PARAMS.MESSAGE := by
  simp only [mkIncoming]

theorem mkIncoming_isBot (body : Bitrix24MessageEvent) (bot : B24Bot) :
    (mkIncoming body bot).isBot = false := by
  simp only [mkIncoming]

/-- C10: `parseMessageEvent` returns `null` exactly when the sender's
`IS_BOT` flag is `'Y'` or the `BOT` array is empty; otherwise it returns
a message whose `text` is the BB-code → Markdown conversion of the raw
message and whose `isBot` field is `false`. -/
theorem parseMessageEvent_spec (e : Bitrix24MessageEvent) :
    (parseMessageEvent e = none ↔
      e.data.USER.IS_BOT = "Y" ∨ e.data.BOT = []) ∧
    (∀ m, parseMessageEvent e = some m →
      m.text = bbCodeToMarkdown e.data.PARAMS.MESSAGE ∧ m.isBot = false) := by
  by_cases hbot : e.data.USER.IS_BOT = "Y"
  · constructor
    · simp [parseMessageEvent, hbot]
    · intro m hm
      simp [parseMessageEvent, hbot] at hm
  · cases hB : e.data.BOT with
    | nil =>
      constructor
      · simp [parseMessageEvent, hbot, hB]
      · intro m hm
        simp [parseMessageEvent, hbot, hB] at hm
    | cons b t =>
      constructor
      · simp [parseMessageEvent, hbot, hB]
      · intro m hm
        simp only [parseMessageEvent, if_neg hbot, hB, List.head?_cons] at hm
        injection hm with hm
        exact ⟨hm ▸ mkIncoming_text e b, hm ▸ mkIncoming_isBot e b⟩

/-- A concrete incoming event: non-bot sender, one `BOT` entry. -/
def sampleMsgEvent : Bitrix24MessageEvent :=
  { data :=
    { BOT := [{ BOT_ID := 7, BOT_CODE := "oc" }]
      PARAMS :=
      { DIALOG_ID := "1", MESSAGE_ID := 5, MESSAGE := "[b]hi[/b]".data
        FILES := none, FROM_USER_ID := 1, TO_CHAT_ID := none, CHAT_TYPE := "P" }
      USER :=
      { ID := 1, NAME := "Anna", FIRST_NAME := "Anna", LAST_NAME := "S"
        IS_BOT := "N" } }
    auth := none }

/-- The message `parseMessageEvent` produces for `sampleMsgEvent`. -/
def sampleIncoming : IncomingMessage :=
  { messageId := 5, dialogId := "1", chatId := none
    text := "**hi**".data
    fromUserId := 1, fromUserName := "Anna", fromUserLastName := "S"
    isBot := false, chatType := "P", files := [], domain := ""
    applicationToken := none, botId := 7, botCode := "oc" }

/-- Witness for `parseMessageEvent_spec` at `sampleMsgEvent`. -/
theorem parseMessageEvent_spec_witness :
    (parseMessageEvent sampleMsgEvent = none ↔
      sampleMsgEvent.data.USER.IS_BOT = "Y" ∨ sampleMsgEvent.data.BOT = []) ∧
    sampleIncoming.text = bbCodeToMarkdown sampleMsgEvent.data.PARAMS.MESSAGE ∧
    sampleIncoming.isBot = false :=
  ⟨(parseMessageEvent_spec sampleMsgEvent).1,
   (parseMessageEvent_spec sampleMsgEvent).2 sampleIncoming (by decide)⟩

end B24
